import Mathlib

/-!
# Synchronisation primitives, benchmark workers and dining philosophers

A shallow embedding of `Task1.cpp` (Semaphore, Barrier, Monitor, the spin lock and the
benchmark worker loops) and `Task3.cpp` (ThreadVector, philosopherRoutine, main), followed
by the properties established about them.

Conventions of the embedding:
* a `thread*` is a natural number (the identity of the worker handle);
* a slot of a `new thread*[n]` array that was never written holds `none`;
* `size_t` values are natural numbers: every `size_t` of `ThreadVector` is bounded by the
  number of slots of a live array, which the address space keeps far below `2 ^ 64`;
* `int` counters are integers, and the result of `++` and `--` on them is reduced to the
  32-bit two's-complement range by `wrapInt`;
* a concurrent run is a schedule, the list of the worker ids in the order in which they take
  their next atomic step.
-/

/-! ## Task3.cpp : ThreadVector -/

/-- Identity of a worker handle (`thread*`). -/
abbrev Handle := Nat

/-- The fields `threads_`, `size_`, `capacity_` of `class ThreadVector`. -/
structure ThreadVector where
  threads_ : List (Option Handle)
  size_ : Nat
  capacity_ : Nat

/-- The constructor: `size_(0), capacity_(1)`, `threads_ = new thread*[capacity_]`. -/
def ThreadVector.init : ThreadVector :=
  { threads_ := List.replicate 1 none, size_ := 0, capacity_ := 1 }

/-- The method `expand()`: double `capacity_`, allocate, copy slots `0 .. size_ - 1` one by
one, switch to the new array. -/
def ThreadVector.expand (v : ThreadVector) : ThreadVector :=
  let capacity := v.capacity_ * 2
  let new_threads := (List.range v.size_).foldl
    (fun arr i => arr.set i (v.threads_.getD i none)) (List.replicate capacity none)
  { threads_ := new_threads, size_ := v.size_, capacity_ := capacity }

/-- The method `add(t)`: expand when full, then `threads_[size_++] = t`. -/
def ThreadVector.add (v : ThreadVector) (t : Handle) : ThreadVector :=
  let v1 := if v.size_ = v.capacity_ then v.expand else v
  { v1 with threads_ := v1.threads_.set v1.size_ (some t), size_ := v1.size_ + 1 }

/-- The method `get(index)`: `threads_[index]`, without a bounds check; `none` stands for the
indeterminate value read from a slot that was never written or lies outside the array. -/
def ThreadVector.get (v : ThreadVector) (index : Nat) : Option Handle :=
  v.threads_.getD index none

/-- The method `count()`. -/
def ThreadVector.count (v : ThreadVector) : Nat := v.size_

/-- A fresh vector to which the handles of `hs` were added in order. -/
def addAll (hs : List Handle) : ThreadVector := hs.foldl ThreadVector.add ThreadVector.init

/-- Observable actions on worker handles and on the backing array. -/
inductive Event
  | join (t : Option Handle)
  | deleteThread (t : Option Handle)
  | deleteArray
  deriving DecidableEq, Repr

/-- The destructor `~ThreadVector() { delete[] threads_; }`. -/
def ThreadVector.destroy (_v : ThreadVector) : List Event := [Event.deleteArray]

/-- Body of the second loop of `main` for the indices of `is`:
`threads.get(i)->join(); delete threads.get(i);`. -/
def joinLoopBody (v : ThreadVector) : List Nat → List Event
  | [] => []
  | i :: is => Event.join (v.get i) :: Event.deleteThread (v.get i) :: joinLoopBody v is

/-- The second loop of `main`: `for (size_t i = 0; i < threads.count(); ++i)`. -/
def mainJoinLoop (v : ThreadVector) : List Event := joinLoopBody v (List.range v.count)

/-- The trace that joins and then releases each of the given handles, in order. -/
def joinThenDelete : List (Option Handle) → List Event
  | [] => []
  | t :: ts => Event.join t :: Event.deleteThread t :: joinThenDelete ts

/-- Number of `join` events in a trace. -/
def joinCount : List Event → Nat
  | [] => 0
  | Event.join _ :: es => joinCount es + 1
  | _ :: es => joinCount es

/-- Number of `join` events on the handle `t` in a trace. -/
def joinCountOf (t : Handle) : List Event → Nat
  | [] => 0
  | Event.join u :: es => (if u = some t then 1 else 0) + joinCountOf t es
  | _ :: es => joinCountOf t es

/-! ## Task3.cpp : philosopherRoutine -/

/-- The constant `kNumPhilosophers`. -/
def kNumPhilosophers : Nat := 5

/-- Index of `first_fork` : `min(id, (id + 1) % kNumPhilosophers)`, for a ring of `n` forks. -/
def firstFork (n id : Nat) : Nat := min id ((id + 1) % n)

/-- Index of `second_fork` : `max(id, (id + 1) % kNumPhilosophers)`, for a ring of `n` forks. -/
def secondFork (n id : Nat) : Nat := max id ((id + 1) % n)

/-- Program points of `philosopherRoutine`, one for each operation on a mutex. The call
`lock(first_fork, second_fork)` is `std::lock` on two mutexes: lock one, `try_lock` the
other, and when that fails unlock the one held and start again with the other one. It covers
the program points `thinking` to `backoffSecond`. -/
inductive Phase
  /-- Entry: about to take `output_lock` for the first message. -/
  | start
  /-- Holding `output_lock`, printing the first message. -/
  | sayThinking
  /-- At `std::lock`, after the first sleep or after a failed `try_lock` of `first_fork` :
  holding nothing, about to lock `first_fork` (blocking). -/
  | thinking
  /-- Inside `std::lock` : `first_fork` locked, about to `try_lock` `second_fork`. -/
  | holdsFirst
  /-- Inside `std::lock` : the `try_lock` of `second_fork` failed, about to unlock
  `first_fork`. -/
  | backoffFirst
  /-- Inside `std::lock` : holding nothing, about to lock `second_fork` (blocking). -/
  | waitSecond
  /-- Inside `std::lock` : `second_fork` locked, about to `try_lock` `first_fork`. -/
  | holdsSecond
  /-- Inside `std::lock` : the `try_lock` of `first_fork` failed, about to unlock
  `second_fork`. -/
  | backoffSecond
  /-- Both forks locked and adopted; about to take `output_lock` for the second message. -/
  | holdsBoth
  /-- Holding both forks and `output_lock`, printing the second message. -/
  | sayEating
  /-- Holding both forks during the second sleep; then about to take `output_lock`. -/
  | eating
  /-- Holding both forks and `output_lock`, printing the third message. -/
  | sayDone
  /-- Scope exit: the destructor of `lock2` is about to unlock `second_fork`. -/
  | dropSecond
  /-- Scope exit: the destructor of `lock1` is about to unlock `first_fork`. -/
  | dropFirst
  /-- The routine has returned. -/
  | done
  deriving DecidableEq, Repr

/-- At this program point the philosopher owns `first_fork`. -/
def Phase.hasFirst : Phase → Bool
  | .holdsFirst | .backoffFirst | .holdsBoth | .sayEating | .eating | .sayDone
  | .dropSecond | .dropFirst => true
  | _ => false

/-- At this program point the philosopher owns `second_fork`. -/
def Phase.hasSecond : Phase → Bool
  | .holdsSecond | .backoffSecond | .holdsBoth | .sayEating | .eating | .sayDone
  | .dropSecond => true
  | _ => false

/-- At this program point the philosopher owns `output_lock`. -/
def Phase.hasOutput : Phase → Bool
  | .sayThinking | .sayEating | .sayDone => true
  | _ => false

/-- The globals `forks[]` and `output_lock` (each mutex is `none` when free and `some id`
when locked by philosopher `id`) and the program point of every philosopher. -/
structure Table where
  forks : Nat → Option Nat
  output_lock : Option Nat
  pc : Nat → Phase

/-- All mutexes free, every philosopher at the entry of its routine. -/
def Table.init : Table :=
  { forks := fun _ => none, output_lock := none, pc := fun _ => Phase.start }

/-- One atomic step of `philosopherRoutine(id)` among `n` philosophers; `none` when the
philosopher is blocked in a blocking lock on a locked mutex, or has returned. A `try_lock`
never blocks: it takes the mutex when it is free and fails when it is locked. -/
def philosopherRoutine (n : Nat) (s : Table) (id : Nat) : Option Table :=
  match s.pc id with
  | .start =>
    if s.output_lock = none then
      some { s with output_lock := some id, pc := Function.update s.pc id .sayThinking }
    else none
  | .sayThinking =>
    some { s with output_lock := none, pc := Function.update s.pc id .thinking }
  | .thinking =>
    if s.forks (firstFork n id) = none then
      some { s with forks := Function.update s.forks (firstFork n id) (some id),
                    pc := Function.update s.pc id .holdsFirst }
    else none
  | .holdsFirst =>
    if s.forks (secondFork n id) = none then
      some { s with forks := Function.update s.forks (secondFork n id) (some id),
                    pc := Function.update s.pc id .holdsBoth }
    else
      some { s with pc := Function.update s.pc id .backoffFirst }
  | .backoffFirst =>
    some { s with forks := Function.update s.forks (firstFork n id) none,
                  pc := Function.update s.pc id .waitSecond }
  | .waitSecond =>
    if s.forks (secondFork n id) = none then
      some { s with forks := Function.update s.forks (secondFork n id) (some id),
                    pc := Function.update s.pc id .holdsSecond }
    else none
  | .holdsSecond =>
    if s.forks (firstFork n id) = none then
      some { s with forks := Function.update s.forks (firstFork n id) (some id),
                    pc := Function.update s.pc id .holdsBoth }
    else
      some { s with pc := Function.update s.pc id .backoffSecond }
  | .backoffSecond =>
    some { s with forks := Function.update s.forks (secondFork n id) none,
                  pc := Function.update s.pc id .thinking }
  | .holdsBoth =>
    if s.output_lock = none then
      some { s with output_lock := some id, pc := Function.update s.pc id .sayEating }
    else none
  | .sayEating =>
    some { s with output_lock := none, pc := Function.update s.pc id .eating }
  | .eating =>
    if s.output_lock = none then
      some { s with output_lock := some id, pc := Function.update s.pc id .sayDone }
    else none
  | .sayDone =>
    some { s with output_lock := none, pc := Function.update s.pc id .dropSecond }
  | .dropSecond =>
    some { s with forks := Function.update s.forks (secondFork n id) none,
                  pc := Function.update s.pc id .dropFirst }
  | .dropFirst =>
    some { s with forks := Function.update s.forks (firstFork n id) none,
                  pc := Function.update s.pc id .done }
  | .done => none

/-- Run the `n` philosopher threads spawned by `main` along a schedule; `none` when the
schedule names a thread that does not exist or that cannot take a step at that moment. -/
def dine (n : Nat) (s : Table) : List Nat → Option Table
  | [] => some s
  | id :: sched =>
    if id < n then
      match philosopherRoutine n s id with
      | some s1 => dine n s1 sched
      | none => none
    else none

/-- The schedule in which philosophers `0 .. n - 1` run their routine one after the other. -/
def oneByOne (n : Nat) : List Nat :=
  (List.range n).flatMap (fun i => List.replicate 10 i)

/-- The program point a philosopher at `x` reaches by its next step; the arguments say
whether its `first_fork` and its `second_fork` are free. -/
def Phase.next (x : Phase) (firstFree secondFree : Bool) : Phase :=
  match x with
  | .start => .sayThinking
  | .sayThinking => .thinking
  | .thinking => .holdsFirst
  | .holdsFirst => if secondFree then .holdsBoth else .backoffFirst
  | .backoffFirst => .waitSecond
  | .waitSecond => .holdsSecond
  | .holdsSecond => if firstFree then .holdsBoth else .backoffSecond
  | .backoffSecond => .thinking
  | .holdsBoth => .sayEating
  | .sayEating => .eating
  | .eating => .sayDone
  | .sayDone => .dropSecond
  | .dropSecond => .dropFirst
  | .dropFirst => .done
  | .done => .done

/-- The philosopher is eating or has eaten. -/
def Phase.ate : Phase → Bool
  | .eating | .sayDone | .dropSecond | .dropFirst | .done => true
  | _ => false

/-- The philosopher has unlocked its `second_fork` for good. -/
def Phase.pastSecond : Phase → Bool
  | .dropFirst | .done => true
  | _ => false

/-- The philosopher has left `std::lock` with both forks. -/
def Phase.locked : Phase → Bool
  | .holdsBoth | .sayEating | .eating | .sayDone | .dropSecond | .dropFirst | .done => true
  | _ => false

/-- The philosopher has had a `try_lock` of its `second_fork` fail and has not yet locked
both forks since. -/
def Phase.flipped : Phase → Bool
  | .backoffFirst | .waitSecond | .holdsSecond | .backoffSecond => true
  | _ => false

/-- The philosopher holds its `second_fork` and not its `first_fork`. -/
def Phase.secondAlone : Phase → Bool
  | .holdsSecond | .backoffSecond => true
  | _ => false

/-- Rank of a program point for the termination argument; `blocked` says that the
`second_fork` of the philosopher may still be taken away by its other user. -/
def Phase.rk (x : Phase) (blocked : Bool) : Nat :=
  match x with
  | .start => 16
  | .sayThinking => 15
  | .thinking => if blocked then 14 else 8
  | .holdsFirst => if blocked then 13 else 7
  | .backoffFirst => 12
  | .waitSecond => 11
  | .holdsSecond => 10
  | .backoffSecond => 9
  | .holdsBoth => 6
  | .sayEating => 5
  | .eating => 4
  | .sayDone => 3
  | .dropSecond => 2
  | .dropFirst => 1
  | .done => 0

/-- The other user of the highest fork `n - 1`, which is the `second_fork` of both the
philosophers `n - 2` and `n - 1`. -/
def topPartner (n i : Nat) : Nat := if i + 1 = n then n - 2 else n - 1

/-- Whether the `second_fork` of philosopher `i` may still be taken away: for `i + 2 < n` it
is the `first_fork` of philosopher `i + 1`, and that philosopher holds it; for the two users
of the highest fork, the other one has not yet unlocked it for good. -/
def blockedAbove (n : Nat) (pc : Nat → Phase) (i : Nat) : Bool :=
  if i + 2 < n then (pc (i + 1)).hasFirst else !(pc (topPartner n i)).pastSecond

/-- Rank of philosopher `i` in a state. -/
def rankOf (n : Nat) (pc : Nat → Phase) (i : Nat) : Nat :=
  (pc i).rk (blockedAbove n pc i)

/-- Termination measure of the five philosophers: the ranks, weighted so that a philosopher
counts for more than the philosopher below it, the two users of the highest fork together
counting for most. -/
def Table.potential (s : Table) : Nat :=
  rankOf kNumPhilosophers s.pc 0 + 17 * rankOf kNumPhilosophers s.pc 1
    + 289 * rankOf kNumPhilosophers s.pc 2
    + 4913 * (rankOf kNumPhilosophers s.pc 3 + rankOf kNumPhilosophers s.pc 4)

/-- Philosopher `i` is, by its program point, the owner of fork `f`. -/
def claimsFork (n : Nat) (pc : Nat → Phase) (i f : Nat) : Prop :=
  i < n ∧ (((pc i).hasFirst = true ∧ f = firstFork n i) ∨
           ((pc i).hasSecond = true ∧ f = secondFork n i))

/-- Every mutex is owned by exactly the philosopher whose program point says so. -/
structure TableInv (n : Nat) (s : Table) : Prop where
  forks_iff : ∀ f i, s.forks f = some i ↔ claimsFork n s.pc i f
  output_iff : ∀ i, s.output_lock = some i ↔ i < n ∧ (s.pc i).hasOutput = true

/-- For the two users `i` and `j` of the highest fork: when `i` has had its `try_lock` of
that fork fail, `j` has left `std::lock` with both forks, and when `i` holds that fork alone,
`j` has unlocked it for good. -/
def TopInv (n : Nat) (pc : Nat → Phase) : Prop :=
  ∀ i j, i < n → j < n → n ≤ i + 2 → n ≤ j + 2 → i ≠ j →
    ((pc i).flipped = true → (pc j).locked = true) ∧
    ((pc i).secondAlone = true → (pc j).pastSecond = true)

/-! ## Task1.cpp : Semaphore -/

/-- Largest value of a POSIX semaphore (`SEM_VALUE_MAX`, equal to `INT_MAX`). -/
def SEM_VALUE_MAX : Int := 2147483647

/-- Conversion of an `int` argument to the `unsigned int` parameter of `sem_init`. -/
def toUnsigned (x : Int) : Int := x % 4294967296

/-- The fields of `class Semaphore` : the POSIX semaphore `sem`, given by its value and by
whether `sem_init` has initialised it, and the two stored constructor arguments `iCount` and
`mCount`. While `initialised` is false, `sem` carries no value (it is written `0`). -/
structure Semaphore where
  sem : Int
  iCount : Int
  mCount : Int
  initialised : Bool
  deriving DecidableEq, Repr

/-- Member initialisers and body of the constructor: `iCount(initialCount)`,
`mCount(maxCount)`, `sem_init(&sem, 0, initialCount)`. `sem_init` takes the value as an
`unsigned int`; when the converted value is above `SEM_VALUE_MAX`, that is for a negative
`initialCount`, it fails with `EINVAL` and leaves the semaphore uninitialised, and the
constructor does not look at its result. -/
def Semaphore.init (initialCount maxCount : Int) : Semaphore :=
  { sem := if toUnsigned initialCount ≤ SEM_VALUE_MAX then toUnsigned initialCount else 0,
    iCount := initialCount, mCount := maxCount,
    initialised := decide (toUnsigned initialCount ≤ SEM_VALUE_MAX) }

/-- Outcome of the constructor call `Semaphore(initialCount, maxCount)` : `some` object, or
`none` if the constructor left by an exception. The constructor has no `throw`. -/
def Semaphore.construct (initialCount maxCount : Int) : Option Semaphore :=
  some (Semaphore.init initialCount maxCount)

/-- The method `acquire()` : `sem_wait`, which completes only on a positive value and then
decrements it; `none` while the caller is blocked, and on a semaphore that was never
initialised, where the call has no defined outcome. -/
def Semaphore.acquire (s : Semaphore) : Option Semaphore :=
  if s.initialised = true ∧ 0 < s.sem then some { s with sem := s.sem - 1 } else none

/-- The method `release()` : `sem_post`, which increments the value (and leaves it alone,
reporting `EOVERFLOW`, at `SEM_VALUE_MAX`). -/
def Semaphore.release (s : Semaphore) : Semaphore :=
  if s.sem < SEM_VALUE_MAX then { s with sem := s.sem + 1 } else s

/-- A call on a semaphore. -/
inductive SemCall
  | acquire
  | release
  deriving DecidableEq, Repr

/-- Effect of one call; an `acquire()` that finds the value `0` has not completed and leaves
the semaphore as it is. -/
def Semaphore.call (s : Semaphore) : SemCall → Semaphore
  | .acquire => (s.acquire).getD s
  | .release => s.release

/-- Effect of a sequence of calls. -/
def Semaphore.calls (s : Semaphore) (cs : List SemCall) : Semaphore :=
  cs.foldl Semaphore.call s

/-- Every `release()` of the sequence gives back a permit taken by an earlier completed
`acquire()` of the sequence; `held` counts the permits taken and not yet given back. -/
def releasesHeld (s : Semaphore) (held : Nat) : List SemCall → Bool
  | [] => true
  | .acquire :: cs =>
    match s.acquire with
    | some s1 => releasesHeld s1 (held + 1) cs
    | none => releasesHeld s held cs
  | .release :: cs =>
    match held with
    | 0 => false
    | h + 1 => releasesHeld s.release h cs

/-! ## Task1.cpp : Barrier -/

/-- Reduction of an integer to the range of a 32-bit `int` (two's complement). -/
def wrapInt (x : Int) : Int := (x + 2147483648) % 4294967296 - 2147483648

/-- The fields `initialCount`, `maxCount`, `generationCount` of `class Barrier`. -/
structure Barrier where
  initialCount : Int
  maxCount : Int
  generationCount : Int
  deriving DecidableEq, Repr

/-- The constructor: `initialCount(count), maxCount(count), generationCount(0)`. -/
def Barrier.init (count : Int) : Barrier :=
  { initialCount := count, maxCount := count, generationCount := 0 }

/-- Outcome of the constructor call `Barrier(count)` : `some` object, or `none` if the
constructor left by an exception. The constructor has no `throw`. -/
def Barrier.construct (count : Int) : Option Barrier :=
  some (Barrier.init count)

/-- What a caller of `wait()` has after the part of the method it runs before it may block:
the generation it recorded in `initialGen`, and whether it took the branch that returns at
once (the last arrival) or the branch that waits on the condition variable. -/
structure Arrival where
  initialGen : Int
  passes : Bool
  deriving DecidableEq, Repr

/-- The method `wait()` up to the point where the caller returns or starts to wait, run under
`mtx` : record the generation, `--initialCount`, and on `0` start the next generation and
reset the counter. -/
def Barrier.wait (b : Barrier) : Barrier × Arrival :=
  let initialGen := b.generationCount
  let c := wrapInt (b.initialCount - 1)
  if c = 0 then
    ({ initialCount := b.maxCount, maxCount := b.maxCount,
       generationCount := wrapInt (b.generationCount + 1) },
     { initialGen := initialGen, passes := true })
  else
    ({ b with initialCount := c }, { initialGen := initialGen, passes := false })

/-- The predicate of `cv.wait` inside `wait()` : `initialGen != generationCount`. A waiting
caller returns only when it finds the predicate true. -/
def Barrier.released (b : Barrier) (initialGen : Int) : Bool :=
  initialGen != b.generationCount

/-- The barrier after `k` entries into `wait()` (the entries are serialised by `mtx`). -/
def Barrier.entries (b : Barrier) : Nat → Barrier
  | 0 => b
  | k + 1 => ((b.entries k).wait).1

/-! ## Task1.cpp : Monitor and the atomic flag -/

/-- The field `isReady` of `class Monitor` (`mtx` and `cv` serialise the methods). -/
structure Monitor where
  isReady : Bool
  deriving DecidableEq, Repr

/-- The constructor: `isReady(false)`. -/
def Monitor.init : Monitor := { isReady := false }

/-- The method `locker()`, from a check of the loop condition under `mtx` on: with `isReady`
set the caller goes (back) into `cv.wait`, which is `none`; otherwise it sets `isReady` and
returns. -/
def Monitor.locker (m : Monitor) : Option Monitor :=
  if m.isReady then none else some { isReady := true }

/-- The method `unlocker()` : `isReady = false; cv.notify_one()`. -/
def Monitor.unlocker (_m : Monitor) : Monitor := { isReady := false }

/-- The state of a `std::atomic_flag`. -/
structure AtomicFlag where
  flag : Bool
  deriving DecidableEq, Repr

/-- The initialiser `ATOMIC_FLAG_INIT` : clear. -/
def AtomicFlag.init : AtomicFlag := { flag := false }

/-- The call `test_and_set` : returns the previous value and leaves the flag set. -/
def AtomicFlag.test_and_set (f : AtomicFlag) : Bool × AtomicFlag :=
  (f.flag, { flag := true })

/-- The call `clear`. -/
def AtomicFlag.clear (_f : AtomicFlag) : AtomicFlag := { flag := false }

/-! ## Task1.cpp : the benchmark workers -/

/-- Number of worker threads `main` starts for each primitive. -/
def kWorkers : Nat := 4

/-- Number of iterations of the loop of every worker function. -/
def kIterations : Nat := 10000

/-- Program points of a benchmark worker. -/
inductive Pc
  /-- At the acquire operation of the current iteration (or retrying it). -/
  | acquiring
  /-- Inside `cv.wait` (Monitor) or `this_thread::yield()` (threadSpinWait). -/
  | parked
  /-- After the acquire operation and before the release operation:
  at `allSymbols.push_back(symbol)`. -/
  | critical
  /-- The loop is over. -/
  | finished
  deriving DecidableEq, Repr

/-- One benchmark run: the primitive shared by the workers, and the program point and loop
counter `i` of every worker. -/
structure Bench (P : Type) where
  prim : P
  pc : Nat → Pc
  iter : Nat → Nat

/-- State in which `main` has created the primitive and started the workers. -/
def Bench.start {P : Type} (p : P) : Bench P :=
  { prim := p, pc := fun _ => Pc.acquiring, iter := fun _ => 0 }

/-- Worker `w` completes its acquire operation, which leaves the primitive as `p`. -/
def Bench.enter {P : Type} (s : Bench P) (w : Nat) (p : P) : Bench P :=
  { s with prim := p, pc := Function.update s.pc w Pc.critical }

/-- Worker `w` moves to the program point `q` without completing an operation on the
primitive, which is left as `p`. -/
def Bench.move {P : Type} (s : Bench P) (w : Nat) (p : P) (q : Pc) : Bench P :=
  { s with prim := p, pc := Function.update s.pc w q }

/-- Worker `w` appends, performs its release operation, which leaves the primitive as `p`, and
goes to the next iteration: `i++`, then `i < 10000`. -/
def Bench.leave {P : Type} (s : Bench P) (w : Nat) (p : P) : Bench P :=
  { prim := p,
    pc := Function.update s.pc w (if s.iter w + 1 < kIterations then Pc.acquiring else Pc.finished),
    iter := Function.update s.iter w (s.iter w + 1) }

/-- One atomic step of worker `w` running `threadSemaphore`. -/
def threadSemaphore (s : Bench Semaphore) (w : Nat) : Bench Semaphore :=
  match s.pc w with
  | .acquiring =>
    match s.prim.acquire with
    | some p => s.enter w p
    | none => s
  | .parked => s
  | .critical => s.leave w s.prim.release
  | .finished => s

/-- One atomic step of worker `w` running `threadMonitor`. -/
def threadMonitor (s : Bench Monitor) (w : Nat) : Bench Monitor :=
  match s.pc w with
  | .acquiring | .parked =>
    match s.prim.locker with
    | some p => s.enter w p
    | none => s.move w s.prim Pc.parked
  | .critical => s.leave w s.prim.unlocker
  | .finished => s

/-- One atomic step of worker `w` running `threadSpinLock`. -/
def threadSpinLock (s : Bench AtomicFlag) (w : Nat) : Bench AtomicFlag :=
  match s.pc w with
  | .acquiring =>
    match s.prim.test_and_set with
    | (true, p) => s.move w p Pc.acquiring
    | (false, p) => s.enter w p
  | .parked => s
  | .critical => s.leave w s.prim.clear
  | .finished => s

/-- One atomic step of worker `w` running `threadSpinWait`. -/
def threadSpinWait (s : Bench AtomicFlag) (w : Nat) : Bench AtomicFlag :=
  match s.pc w with
  | .acquiring =>
    match s.prim.test_and_set with
    | (true, p) => s.move w p Pc.parked
    | (false, p) => s.enter w p
  | .parked => s.move w s.prim Pc.acquiring
  | .critical => s.leave w s.prim.clear
  | .finished => s

/-- Run the `kWorkers` workers of one benchmark along a schedule; an id that names no worker
is skipped. -/
def runBench {P : Type} (step : Bench P → Nat → Bench P) (s : Bench P) (sched : List Nat) :
    Bench P :=
  sched.foldl (fun s w => if w < kWorkers then step s w else s) s

/-- The semaphore benchmark of `main` : `Semaphore sem(4, 4)` and four `threadSemaphore`. -/
def semaphoreBenchmark (sched : List Nat) : Bench Semaphore :=
  runBench threadSemaphore (Bench.start (Semaphore.init 4 4)) sched

/-- The monitor benchmark of `main`. -/
def monitorBenchmark (sched : List Nat) : Bench Monitor :=
  runBench threadMonitor (Bench.start Monitor.init) sched

/-- The busy spin-lock benchmark of `main`. -/
def spinLockBenchmark (sched : List Nat) : Bench AtomicFlag :=
  runBench threadSpinLock (Bench.start AtomicFlag.init) sched

/-- The yielding spin-lock benchmark of `main`. -/
def spinWaitBenchmark (sched : List Nat) : Bench AtomicFlag :=
  runBench threadSpinWait (Bench.start AtomicFlag.init) sched

/-- Workers among `0 .. kWorkers - 1` that are between their acquire and release operation. -/
def Bench.inside {P : Type} (s : Bench P) : List Nat :=
  (List.range kWorkers).filter (fun w => s.pc w = Pc.critical)

/-- The flag of a single-owner primitive is set exactly when some worker is between its
acquire and release operation, and at most one worker is. -/
def Exclusive (held : Bool) (pc : Nat → Pc) : Prop :=
  (held = true ↔ ∃ w, pc w = Pc.critical) ∧
  ∀ w1 w2, pc w1 = Pc.critical → pc w2 = Pc.critical → w1 = w2

/-- State reached from a fresh vector by adding the handles of hs in order. -/
structure VecInv (v : ThreadVector) (hs : List Handle) : Prop where
  size_eq : v.size_ = hs.length
  len_eq : v.threads_.length = v.capacity_
  size_le : v.size_ ≤ v.capacity_
  cap_pos : 1 ≤ v.capacity_
  cap_pow : ∃ k, v.capacity_ = 2 ^ k
  cap_tight : v.capacity_ = 1 ∨ v.capacity_ < 2 * v.size_
  get_eq : ∀ i, i < hs.length → v.get i = hs[i]?


/-! # Properties -/

/-! ### ThreadVector -/

theorem copy_loop_spec (src : List (Option Handle)) (n : Nat) (dst : List (Option Handle)) :
    ((List.range n).foldl (fun arr i => arr.set i (src.getD i none)) dst).length = dst.length ∧
    ∀ j, ((List.range n).foldl (fun arr i => arr.set i (src.getD i none)) dst).getD j none
      = if j < n ∧ j < dst.length then src.getD j none else dst.getD j none := by
  induction n with
  | zero => simp
  | succ n ih =>
    obtain ⟨hlen, hget⟩ := ih
    rw [List.range_succ, List.foldl_append]
    simp only [List.foldl_cons, List.foldl_nil, List.length_set]
    refine ⟨hlen, fun j => ?_⟩
    rw [List.getD_eq_getElem?_getD, List.getElem?_set, hlen]
    by_cases hj : n = j
    · subst hj
      by_cases hl : n < dst.length
      · simp [hl]
      · have hd : dst[n]? = none := List.getElem?_eq_none (by omega)
        simp [hl, List.getD_eq_getElem?_getD, hd]
    · have := hget j
      rw [List.getD_eq_getElem?_getD] at this
      simp only [hj, if_false]
      rw [this]
      by_cases h1 : j < n
      · have : j < n + 1 := by omega
        simp [h1, this]
      · have : ¬ j < n + 1 := by omega
        simp [h1, this]

theorem expand_spec (v : ThreadVector) :
    v.expand.size_ = v.size_ ∧ v.expand.capacity_ = v.capacity_ * 2 ∧
    v.expand.threads_.length = v.capacity_ * 2 ∧
    ∀ j, v.expand.get j = if j < v.size_ ∧ j < v.capacity_ * 2 then v.get j else none := by
  have h := copy_loop_spec v.threads_ v.size_ (List.replicate (v.capacity_ * 2) none)
  refine ⟨rfl, rfl, ?_, fun j => ?_⟩
  · simpa [ThreadVector.expand] using h.1
  · have := h.2 j
    simp only [ThreadVector.get, ThreadVector.expand]
    rw [this]
    simp only [List.getD_eq_getElem?_getD, List.getElem?_replicate, List.length_replicate]
    by_cases h1 : j < v.size_ ∧ j < v.capacity_ * 2
    · simp only [h1, and_self, if_true]
    · simp only [h1, if_false]
      split <;> rfl

theorem add_size (v : ThreadVector) (t : Handle) : (v.add t).size_ = v.size_ + 1 := by
  unfold ThreadVector.add
  split <;> simp [(expand_spec v).1]

theorem add_capacity (v : ThreadVector) (t : Handle) :
    (v.add t).capacity_ = if v.size_ = v.capacity_ then v.capacity_ * 2 else v.capacity_ := by
  unfold ThreadVector.add
  split <;> simp [(expand_spec v).2.1]

theorem add_get (v : ThreadVector) (t : Handle) (hlen : v.threads_.length = v.capacity_)
    (hle : v.size_ ≤ v.capacity_) (hpos : 1 ≤ v.capacity_) (j : Nat) :
    (v.add t).threads_.length = (v.add t).capacity_ ∧
    (v.add t).get j = if j = v.size_ then some t else if j < v.size_ then v.get j
      else (v.add t).get j := by
  obtain ⟨e1, e2, e3, e4⟩ := expand_spec v
  unfold ThreadVector.add
  by_cases hfull : v.size_ = v.capacity_
  · simp only [hfull, if_true]
    simp only [ThreadVector.get, List.length_set, List.getD_eq_getElem?_getD, List.getElem?_set]
    refine ⟨by rw [e3, e2], ?_⟩
    rw [e1, e3, hfull]
    by_cases hj : v.capacity_ = j
    · subst hj
      have : v.capacity_ < v.capacity_ * 2 := by omega
      simp [this]
    · have hj2 : ¬ j = v.capacity_ := fun h => hj h.symm
      simp only [hj, hj2, if_false]
      by_cases hlt : j < v.capacity_
      · have := e4 j
        simp only [ThreadVector.get, List.getD_eq_getElem?_getD] at this
        rw [this, hfull]
        have h2 : j < v.capacity_ * 2 := by omega
        simp [hlt, h2]
      · simp [hlt]
  · simp only [hfull, if_false]
    simp only [ThreadVector.get, List.length_set, List.getD_eq_getElem?_getD, List.getElem?_set]
    refine ⟨hlen, ?_⟩
    by_cases hj : v.size_ = j
    · subst hj
      have : v.size_ < v.threads_.length := by omega
      simp [this]
    · have hj2 : ¬ j = v.size_ := fun h => hj h.symm
      simp only [hj, hj2, if_false]
      split <;> rfl

theorem addAll_snoc (hs : List Handle) (t : Handle) :
    addAll (hs ++ [t]) = (addAll hs).add t := by
  simp [addAll, List.foldl_append]

theorem addAll_inv (hs : List Handle) : VecInv (addAll hs) hs := by
  induction hs using List.reverseRecOn with
  | nil =>
    exact ⟨rfl, rfl, by decide, by decide, ⟨0, rfl⟩, Or.inl rfl, fun i hi => by simp at hi⟩
  | append_singleton hs t ih =>
    rw [addAll_snoc]
    have hsz := add_size (addAll hs) t
    have hcap := add_capacity (addAll hs) t
    have hg := add_get (addAll hs) t ih.len_eq ih.size_le ih.cap_pos
    have h1 := ih.size_eq
    have h2 := ih.size_le
    have h3 := ih.cap_pos
    have h4 := ih.cap_tight
    refine ⟨by simp [hsz, h1], (hg 0).1, ?_, ?_, ?_, ?_, ?_⟩
    · rw [hsz, hcap]; split <;> omega
    · rw [hcap]; split <;> omega
    · obtain ⟨k, hk⟩ := ih.cap_pow
      rw [hcap]
      split
      · exact ⟨k + 1, by rw [hk, pow_succ]⟩
      · exact ⟨k, hk⟩
    · rw [hsz, hcap]; split <;> omega
    · intro i hi
      rw [(hg i).2]
      simp only [List.length_append, List.length_singleton] at hi
      by_cases hi2 : i = (addAll hs).size_
      · simp [hi2, h1]
      · have hlt : i < (addAll hs).size_ := by omega
        simp only [hi2, hlt, if_false, if_true]
        rw [ih.get_eq i (by omega), List.getElem?_append_left (by omega)]

/-! ### Fork order -/

theorem fork_facts (n id : Nat) (hn : 2 ≤ n) (hid : id < n) :
    firstFork n id < secondFork n id ∧ secondFork n id < n ∧
    ((firstFork n id = id ∧ secondFork n id = (id + 1) % n) ∨
      (firstFork n id = (id + 1) % n ∧ secondFork n id = id)) := by
  unfold firstFork secondFork
  by_cases h : id + 1 = n
  · have h0 : (id + 1) % n = 0 := by rw [h]; exact Nat.mod_self n
    rw [h0]
    have : min id 0 = 0 := Nat.min_eq_right (Nat.zero_le _)
    have : max id 0 = id := Nat.max_eq_left (Nat.zero_le _)
    omega
  · have h1 : (id + 1) % n = id + 1 := Nat.mod_eq_of_lt (by omega)
    rw [h1]
    have : min id (id + 1) = id := Nat.min_eq_left (by omega)
    have : max id (id + 1) = id + 1 := Nat.max_eq_right (by omega)
    omega

/-! ### Dining philosophers : invariant -/

theorem tableInv_init (n : Nat) : TableInv n Table.init := by
  constructor
  · intro f i; simp [Table.init, claimsFork, Phase.hasFirst, Phase.hasSecond]
  · intro i; simp [Table.init, Phase.hasOutput]

theorem claimsFork_other (n : Nat) (pc : Nat → Phase) (id : Nat) (p : Phase) (i f : Nat)
    (hi : i ≠ id) : claimsFork n (Function.update pc id p) i f ↔ claimsFork n pc i f := by
  simp [claimsFork, Function.update_noteq hi]

theorem claimsFork_same_flags (n : Nat) (pc : Nat → Phase) (id : Nat) (p : Phase)
    (h1 : p.hasFirst = (pc id).hasFirst) (h2 : p.hasSecond = (pc id).hasSecond) (i f : Nat) :
    claimsFork n (Function.update pc id p) i f ↔ claimsFork n pc i f := by
  by_cases hi : i = id
  · subst hi; simp [claimsFork, h1, h2]
  · exact claimsFork_other n pc id p i f hi

theorem owner_acquire (own : Nat → Option Nat) (C C1 : Nat → Nat → Prop)
    (hI : ∀ k i, own k = some i ↔ C i k) (g id : Nat) (hfree : own g = none)
    (hid : ∀ k, C1 id k ↔ (C id k ∨ k = g)) (hoth : ∀ i, i ≠ id → ∀ k, (C1 i k ↔ C i k)) :
    ∀ k i, Function.update own g (some id) k = some i ↔ C1 i k := by
  intro k i
  by_cases hk : k = g
  · subst hk
    rw [Function.update_same]
    by_cases hi : i = id
    · subst hi; simp [hid]
    · rw [hoth i hi, ← hI, hfree]
      constructor
      · intro h; exact absurd (Option.some.inj h).symm hi
      · intro h; cases h
  · rw [Function.update_noteq hk, hI]
    by_cases hi : i = id
    · subst hi; simp [hid, hk]
    · rw [hoth i hi]

theorem owner_release (own : Nat → Option Nat) (C C1 : Nat → Nat → Prop)
    (hI : ∀ k i, own k = some i ↔ C i k) (g id : Nat) (hown : own g = some id)
    (hid : ∀ k, C1 id k ↔ (C id k ∧ k ≠ g)) (hoth : ∀ i, i ≠ id → ∀ k, (C1 i k ↔ C i k)) :
    ∀ k i, Function.update own g none k = some i ↔ C1 i k := by
  intro k i
  by_cases hk : k = g
  · subst hk
    rw [Function.update_same]
    by_cases hi : i = id
    · subst hi; simp [hid]
    · rw [hoth i hi, ← hI, hown]
      constructor
      · intro h; cases h
      · intro h; exact absurd (Option.some.inj h).symm hi
  · rw [Function.update_noteq hk, hI]
    by_cases hi : i = id
    · subst hi; simp [hid, hk]
    · rw [hoth i hi]

/-- Taking `output_lock` keeps the invariant. -/
theorem tableInv_lockOutput (n : Nat) (s : Table) (id : Nat) (p : Phase) (hid : id < n)
    (hinv : TableInv n s) (hfree : s.output_lock = none)
    (h1 : p.hasFirst = (s.pc id).hasFirst) (h2 : p.hasSecond = (s.pc id).hasSecond)
    (h3 : p.hasOutput = true) :
    TableInv n { s with output_lock := some id, pc := Function.update s.pc id p } := by
  obtain ⟨hF, hO⟩ := hinv
  constructor
  · intro f i
    show s.forks f = some i ↔ _
    rw [claimsFork_same_flags n s.pc id p h1 h2, hF]
  · intro i
    show some id = some i ↔ _
    by_cases hi : i = id
    · subst hi; simp [hid, h3]
    · simp only [Function.update_noteq hi]
      rw [← hO i, hfree]
      constructor
      · intro h; exact absurd (Option.some.inj h).symm hi
      · intro h; cases h

/-- Releasing `output_lock` keeps the invariant. -/
theorem tableInv_unlockOutput (n : Nat) (s : Table) (id : Nat) (p : Phase) (hid : id < n)
    (hinv : TableInv n s) (hown : (s.pc id).hasOutput = true)
    (h1 : p.hasFirst = (s.pc id).hasFirst) (h2 : p.hasSecond = (s.pc id).hasSecond)
    (h3 : p.hasOutput = false) :
    TableInv n { s with output_lock := none, pc := Function.update s.pc id p } := by
  obtain ⟨hF, hO⟩ := hinv
  have hmine : s.output_lock = some id := (hO id).2 ⟨hid, hown⟩
  constructor
  · intro f i
    show s.forks f = some i ↔ _
    rw [claimsFork_same_flags n s.pc id p h1 h2, hF]
  · intro i
    show none = some i ↔ _
    by_cases hi : i = id
    · subst hi; simp [h3]
    · simp only [Function.update_noteq hi]
      rw [← hO i, hmine]
      constructor
      · intro h; cases h
      · intro h; exact absurd (Option.some.inj h).symm hi

/-- Locking a free fork keeps the invariant. -/
theorem tableInv_lockFork (n : Nat) (s : Table) (id : Nat) (p : Phase) (g : Nat)
    (hinv : TableInv n s) (hfree : s.forks g = none)
    (hcl : ∀ k, claimsFork n (Function.update s.pc id p) id k ↔ (claimsFork n s.pc id k ∨ k = g))
    (h3 : p.hasOutput = (s.pc id).hasOutput) :
    TableInv n { s with forks := Function.update s.forks g (some id),
                        pc := Function.update s.pc id p } := by
  obtain ⟨hF, hO⟩ := hinv
  constructor
  · exact owner_acquire s.forks (claimsFork n s.pc) (claimsFork n (Function.update s.pc id p))
      hF g id hfree hcl (fun i hi k => claimsFork_other n s.pc id p i k hi)
  · intro i
    show s.output_lock = some i ↔ _
    by_cases hi : i = id
    · subst hi; simp [h3, hO]
    · simp only [Function.update_noteq hi]; exact hO i

/-- Unlocking an owned fork keeps the invariant. -/
theorem tableInv_unlockFork (n : Nat) (s : Table) (id : Nat) (p : Phase) (g : Nat)
    (hinv : TableInv n s) (hown : claimsFork n s.pc id g)
    (hcl : ∀ k, claimsFork n (Function.update s.pc id p) id k ↔ (claimsFork n s.pc id k ∧ k ≠ g))
    (h3 : p.hasOutput = (s.pc id).hasOutput) :
    TableInv n { s with forks := Function.update s.forks g none,
                        pc := Function.update s.pc id p } := by
  obtain ⟨hF, hO⟩ := hinv
  constructor
  · exact owner_release s.forks (claimsFork n s.pc) (claimsFork n (Function.update s.pc id p))
      hF g id ((hF g id).2 hown) hcl (fun i hi k => claimsFork_other n s.pc id p i k hi)
  · intro i
    show s.output_lock = some i ↔ _
    by_cases hi : i = id
    · subst hi; simp [h3, hO]
    · simp only [Function.update_noteq hi]; exact hO i

/-- A change of program point that neither takes nor gives back a mutex keeps the
invariant. -/
theorem tableInv_move (n : Nat) (s : Table) (id : Nat) (p : Phase)
    (hinv : TableInv n s)
    (h1 : p.hasFirst = (s.pc id).hasFirst) (h2 : p.hasSecond = (s.pc id).hasSecond)
    (h3 : p.hasOutput = (s.pc id).hasOutput) :
    TableInv n { s with pc := Function.update s.pc id p } := by
  obtain ⟨hF, hO⟩ := hinv
  constructor
  · intro f i
    show s.forks f = some i ↔ _
    rw [claimsFork_same_flags n s.pc id p h1 h2, hF]
  · intro i
    show s.output_lock = some i ↔ _
    by_cases hi : i = id
    · subst hi; simp [h3, hO]
    · simp only [Function.update_noteq hi]; exact hO i

theorem tableInv_step (n : Nat) (hn : 2 ≤ n) (s s1 : Table) (id : Nat) (hid : id < n)
    (hinv : TableInv n s) (hstep : philosopherRoutine n s id = some s1) : TableInv n s1 := by
  obtain ⟨hlt, hsn, _⟩ := fork_facts n id hn hid
  unfold philosopherRoutine at hstep
  split at hstep <;> rename_i hpc
  · -- start
    split at hstep <;> rename_i hfree
    · cases hstep
      exact tableInv_lockOutput n s id _ hid hinv hfree (by rw [hpc]; rfl) (by rw [hpc]; rfl) rfl
    · cases hstep
  · -- sayThinking
    cases hstep
    exact tableInv_unlockOutput n s id _ hid hinv (by rw [hpc]; rfl) (by rw [hpc]; rfl)
      (by rw [hpc]; rfl) rfl
  · -- thinking
    split at hstep <;> rename_i hfree
    · cases hstep
      refine tableInv_lockFork n s id _ _ hinv hfree (fun k => ?_) (by rw [hpc]; rfl)
      simp [claimsFork, hpc, Phase.hasFirst, Phase.hasSecond, hid]
    · cases hstep
  · -- holdsFirst
    split at hstep <;> rename_i hfree
    · cases hstep
      refine tableInv_lockFork n s id _ _ hinv hfree (fun k => ?_) (by rw [hpc]; rfl)
      simp [claimsFork, hpc, Phase.hasFirst, Phase.hasSecond, hid]
    · cases hstep
      exact tableInv_move n s id _ hinv (by rw [hpc]; rfl) (by rw [hpc]; rfl) (by rw [hpc]; rfl)
  · -- backoffFirst
    cases hstep
    refine tableInv_unlockFork n s id _ _ hinv ?_ (fun k => ?_) (by rw [hpc]; rfl)
    · simp [claimsFork, hpc, Phase.hasFirst, Phase.hasSecond, hid]
    · simp [claimsFork, hpc, Phase.hasFirst, Phase.hasSecond, hid]
  · -- waitSecond
    split at hstep <;> rename_i hfree
    · cases hstep
      refine tableInv_lockFork n s id _ _ hinv hfree (fun k => ?_) (by rw [hpc]; rfl)
      simp [claimsFork, hpc, Phase.hasFirst, Phase.hasSecond, hid]
    · cases hstep
  · -- holdsSecond
    split at hstep <;> rename_i hfree
    · cases hstep
      refine tableInv_lockFork n s id _ _ hinv hfree (fun k => ?_) (by rw [hpc]; rfl)
      simp only [claimsFork, hpc, Function.update_same, Phase.hasFirst, Phase.hasSecond, hid]
      simp only [true_and, Bool.false_eq_true, false_and, false_or]
      omega
    · cases hstep
      exact tableInv_move n s id _ hinv (by rw [hpc]; rfl) (by rw [hpc]; rfl) (by rw [hpc]; rfl)
  · -- backoffSecond
    cases hstep
    refine tableInv_unlockFork n s id _ _ hinv ?_ (fun k => ?_) (by rw [hpc]; rfl)
    · simp [claimsFork, hpc, Phase.hasFirst, Phase.hasSecond, hid]
    · simp [claimsFork, hpc, Phase.hasFirst, Phase.hasSecond, hid]
  · -- holdsBoth
    split at hstep <;> rename_i hfree
    · cases hstep
      exact tableInv_lockOutput n s id _ hid hinv hfree (by rw [hpc]; rfl) (by rw [hpc]; rfl) rfl
    · cases hstep
  · -- sayEating
    cases hstep
    exact tableInv_unlockOutput n s id _ hid hinv (by rw [hpc]; rfl) (by rw [hpc]; rfl)
      (by rw [hpc]; rfl) rfl
  · -- eating
    split at hstep <;> rename_i hfree
    · cases hstep
      exact tableInv_lockOutput n s id _ hid hinv hfree (by rw [hpc]; rfl) (by rw [hpc]; rfl) rfl
    · cases hstep
  · -- sayDone
    cases hstep
    exact tableInv_unlockOutput n s id _ hid hinv (by rw [hpc]; rfl) (by rw [hpc]; rfl)
      (by rw [hpc]; rfl) rfl
  · -- dropSecond
    cases hstep
    refine tableInv_unlockFork n s id _ _ hinv ?_ (fun k => ?_) (by rw [hpc]; rfl)
    · simp [claimsFork, hpc, Phase.hasFirst, Phase.hasSecond, hid]
    · simp only [claimsFork, hpc, Function.update_same, Phase.hasFirst, Phase.hasSecond, hid]
      simp only [true_and, Bool.false_eq_true, false_and, or_false]
      omega
  · -- dropFirst
    cases hstep
    refine tableInv_unlockFork n s id _ _ hinv ?_ (fun k => ?_) (by rw [hpc]; rfl)
    · simp [claimsFork, hpc, Phase.hasFirst, Phase.hasSecond, hid]
    · simp only [claimsFork, hpc, Function.update_same, Phase.hasFirst, Phase.hasSecond, hid]
      simp
  · cases hstep

/-! ### Dining philosophers : the steps of one philosopher -/

theorem firstFork_eq (n k : Nat) (hn : 2 ≤ n) (hk : k < n) :
    firstFork n k = if k + 1 = n then 0 else k := by
  obtain ⟨h1, h2, h3⟩ := fork_facts n k hn hk
  by_cases h : k + 1 = n
  · have h0 : (k + 1) % n = 0 := by rw [h]; exact Nat.mod_self n
    rw [if_pos h]; omega
  · have h0 : (k + 1) % n = k + 1 := Nat.mod_eq_of_lt (by omega)
    rw [if_neg h]; omega

theorem secondFork_eq (n k : Nat) (hn : 2 ≤ n) (hk : k < n) :
    secondFork n k = if k + 1 = n then k else k + 1 := by
  obtain ⟨h1, h2, h3⟩ := fork_facts n k hn hk
  by_cases h : k + 1 = n
  · have h0 : (k + 1) % n = 0 := by rw [h]; exact Nat.mod_self n
    rw [if_pos h]; omega
  · have h0 : (k + 1) % n = k + 1 := Nat.mod_eq_of_lt (by omega)
    rw [if_neg h]; omega

theorem step_next (n : Nat) (s s1 : Table) (id : Nat)
    (hstep : philosopherRoutine n s id = some s1) :
    s1.pc = Function.update s.pc id
      ((s.pc id).next (decide (s.forks (firstFork n id) = none))
        (decide (s.forks (secondFork n id) = none))) ∧
    s.pc id ≠ Phase.done ∧
    (s.pc id = Phase.thinking → s.forks (firstFork n id) = none) ∧
    (s.pc id = Phase.waitSecond → s.forks (secondFork n id) = none) := by
  unfold philosopherRoutine at hstep
  split at hstep <;> rename_i hpc
  all_goals first
    | (split at hstep <;> rename_i hfree)
    | skip
  all_goals cases hstep
  all_goals simp_all [Phase.next]

theorem locked_next (x : Phase) (a b : Bool) (h : x.locked = true) :
    (x.next a b).locked = true := by
  cases x <;> simp_all [Phase.next, Phase.locked]

theorem pastSecond_next (x : Phase) (a b : Bool) (h : x.pastSecond = true) :
    (x.next a b).pastSecond = true := by
  cases x <;> simp_all [Phase.next, Phase.pastSecond]

theorem ate_next (x : Phase) (a b : Bool) (h : (x.next a b).ate = true) :
    x.ate = true ∨ x.next a b = Phase.eating := by
  cases x <;> cases a <;> cases b <;> simp_all [Phase.next, Phase.ate]

theorem flipped_next (x : Phase) (a b : Bool) (h : (x.next a b).flipped = true) :
    x.flipped = true ∨ (x = Phase.holdsFirst ∧ b = false) := by
  cases x <;> cases a <;> cases b <;> simp_all [Phase.next, Phase.flipped]

theorem secondAlone_next (x : Phase) (a b : Bool) (h : (x.next a b).secondAlone = true) :
    x.secondAlone = true ∨ x = Phase.waitSecond := by
  cases x <;> cases a <;> cases b <;> simp_all [Phase.next, Phase.secondAlone]

theorem pastSecond_of_locked (x : Phase) (h : x.locked = true) (h2 : x.hasSecond = false) :
    x.pastSecond = true := by
  cases x <;> simp_all [Phase.locked, Phase.hasSecond, Phase.pastSecond]

theorem locked_of_hasSecond (x : Phase) (h : x.hasSecond = true) (h2 : x.secondAlone = false) :
    x.locked = true := by
  cases x <;> simp_all [Phase.locked, Phase.hasSecond, Phase.secondAlone]

theorem rk_le (x : Phase) (H : Bool) : x.rk H ≤ 16 := by
  cases x <;> cases H <;> simp [Phase.rk]

theorem rk_mono (x : Phase) (H H1 : Bool) (h : H1 = true → H = true) : x.rk H1 ≤ x.rk H := by
  cases x <;> cases H <;> cases H1 <;> simp_all [Phase.rk]

theorem rk_next_lt (x : Phase) (a b H : Bool) (hx : x ≠ Phase.done)
    (h1 : H = true → x.secondAlone = false)
    (h2 : H = false → x = Phase.holdsFirst → b = true) :
    (x.next a b).rk H < x.rk H := by
  cases x <;> cases H <;> cases a <;> cases b <;>
    simp_all [Phase.next, Phase.rk, Phase.secondAlone]

/-! ### Dining philosophers : the two users of the highest fork -/

theorem top_fork_owner (n : Nat) (hn : 2 ≤ n) (s : Table) (hinv : TableInv n s)
    (i j k : Nat) (hi : i < n) (hj : j < n) (hi2 : n ≤ i + 2) (hj2 : n ≤ j + 2) (hij : i ≠ j)
    (hown : s.forks (secondFork n i) = some k) :
    (k = i ∨ k = j) ∧ (s.pc k).hasSecond = true := by
  obtain ⟨hk, hcl⟩ := (hinv.forks_iff _ _).1 hown
  have e1 := firstFork_eq n k hn hk
  have e2 := secondFork_eq n k hn hk
  have e3 := secondFork_eq n i hn hi
  rcases hcl with ⟨_, h⟩ | ⟨h0, h⟩
  · exfalso
    split at e1 <;> split at e3 <;> omega
  · refine ⟨?_, h0⟩
    split at e2 <;> split at e3 <;> omega

theorem top_fork_same (n : Nat) (hn : 2 ≤ n) (i j : Nat) (hi : i < n) (hj : j < n)
    (hi2 : n ≤ i + 2) (hj2 : n ≤ j + 2) : secondFork n i = secondFork n j := by
  have e2 := secondFork_eq n j hn hj
  have e3 := secondFork_eq n i hn hi
  split at e2 <;> split at e3 <;> omega

theorem topInv_init (n : Nat) : TopInv n Table.init.pc := by
  intro i j _ _ _ _ _
  simp [Table.init, Phase.flipped, Phase.secondAlone]

theorem topInv_step (n : Nat) (hn : 2 ≤ n) (s s1 : Table) (id : Nat)
    (hinv : TableInv n s) (htop : TopInv n s.pc)
    (hstep : philosopherRoutine n s id = some s1) : TopInv n s1.pc := by
  obtain ⟨hpc, hnd, hg1, hg2⟩ := step_next n s s1 id hstep
  intro i j hi hj hi2 hj2 hij
  obtain ⟨ih1, ih2⟩ := htop i j hi hj hi2 hj2 hij
  obtain ⟨ih3, ih4⟩ := htop j i hj hi hj2 hi2 (Ne.symm hij)
  rw [hpc]
  by_cases e1 : i = id
  · subst e1
    rw [Function.update_same, Function.update_noteq (Ne.symm hij)]
    have hfree_imp : s.forks (secondFork n i) = none → (s.pc j).hasSecond = false := by
      intro hfree
      by_contra hc
      have hc2 : (s.pc j).hasSecond = true := by simpa using hc
      have := (hinv.forks_iff (secondFork n j) j).2 ⟨hj, Or.inr ⟨hc2, rfl⟩⟩
      rw [← top_fork_same n hn i j hi hj hi2 hj2, hfree] at this
      cases this
    have hheld_imp : s.forks (secondFork n i) ≠ none → (s.pc i).hasSecond = false →
        (s.pc j).hasSecond = true := by
      intro hheld hmine
      cases hown : s.forks (secondFork n i) with
      | none => exact absurd hown hheld
      | some k =>
        obtain ⟨hk, hk2⟩ := top_fork_owner n hn s hinv i j k hi hj hi2 hj2 hij hown
        rcases hk with hk | hk
        · subst hk; rw [hmine] at hk2; cases hk2
        · subst hk; exact hk2
    constructor
    · intro hfl
      rcases flipped_next _ _ _ hfl with h | ⟨hx, hb⟩
      · exact ih1 h
      · have hheld : s.forks (secondFork n i) ≠ none := by simpa using hb
        have hsec := hheld_imp hheld (by rw [hx]; rfl)
        apply locked_of_hasSecond _ hsec
        by_contra hc
        have hc2 : (s.pc j).secondAlone = true := by simpa using hc
        have hpast := ih4 hc2
        rw [hx] at hpast
        cases hpast
    · intro hal
      rcases secondAlone_next _ _ _ hal with h | hx
      · exact ih2 h
      · exact pastSecond_of_locked _ (ih1 (by rw [hx]; rfl)) (hfree_imp (hg2 hx))
  · rw [Function.update_noteq e1]
    by_cases e2 : j = id
    · subst e2
      rw [Function.update_same]
      exact ⟨fun h => locked_next _ _ _ (ih1 h), fun h => pastSecond_next _ _ _ (ih2 h)⟩
    · rw [Function.update_noteq e2]
      exact ⟨ih1, ih2⟩

/-! ### Dining philosophers : absence of deadlock -/

theorem step_of_output_free (n : Nat) (s : Table) (j : Nat) (hout : s.output_lock = none)
    (h1 : s.pc j ≠ Phase.thinking) (h2 : s.pc j ≠ Phase.waitSecond) (h3 : s.pc j ≠ Phase.done) :
    (philosopherRoutine n s j).isSome = true := by
  unfold philosopherRoutine
  cases hpc : s.pc j <;> simp_all <;> split <;> rfl

theorem step_of_output_owner (n : Nat) (s : Table) (j : Nat) (h : (s.pc j).hasOutput = true) :
    (philosopherRoutine n s j).isSome = true := by
  unfold philosopherRoutine
  cases hpc : s.pc j <;> simp_all [Phase.hasOutput]

theorem no_deadlock (n : Nat) (s : Table) (hinv : TableInv n s)
    (i : Nat) (hi : i < n) (hnd : s.pc i ≠ Phase.done) :
    ∃ k, k < n ∧ (philosopherRoutine n s k).isSome = true := by
  cases hout : s.output_lock with
  | some j =>
    obtain ⟨hj, hown⟩ := (hinv.output_iff j).1 hout
    exact ⟨j, hj, step_of_output_owner n s j hown⟩
  | none =>
    by_cases hq : ∃ j, j < n ∧ s.pc j ≠ Phase.thinking ∧ s.pc j ≠ Phase.waitSecond ∧
        s.pc j ≠ Phase.done
    · obtain ⟨j, hj, h1, h2, h3⟩ := hq
      exact ⟨j, hj, step_of_output_free n s j hout h1 h2 h3⟩
    · have hquiet : ∀ j, j < n → (s.pc j).hasFirst = false ∧ (s.pc j).hasSecond = false := by
        intro j hj
        by_contra hc
        apply hq
        refine ⟨j, hj, ?_, ?_, ?_⟩ <;> intro hp <;> rw [hp] at hc <;>
          simp [Phase.hasFirst, Phase.hasSecond] at hc
      have hfree : ∀ f, s.forks f = none := by
        intro f
        cases hf : s.forks f with
        | none => rfl
        | some k =>
          obtain ⟨hk, hcl⟩ := (hinv.forks_iff f k).1 hf
          obtain ⟨q1, q2⟩ := hquiet k hk
          rw [q1, q2] at hcl
          simp at hcl
      refine ⟨i, hi, ?_⟩
      have hcase : s.pc i = Phase.thinking ∨ s.pc i = Phase.waitSecond := by
        by_contra hc
        exact hq ⟨i, hi, fun h => hc (Or.inl h), fun h => hc (Or.inr h), hnd⟩
      unfold philosopherRoutine
      rcases hcase with h | h <;> simp [h, hfree]

/-! ### Dining philosophers : termination measure -/

theorem topPartner_facts (n i : Nat) (hn : 2 ≤ n) :
    topPartner n i < n ∧ n ≤ topPartner n i + 2 ∧ topPartner n i ≠ i := by
  unfold topPartner
  split <;> omega

theorem not_alone_of_blocked (n : Nat) (hn : 2 ≤ n) (s : Table) (hinv : TableInv n s)
    (htop : TopInv n s.pc) (i : Nat) (hi : i < n)
    (hb : blockedAbove n s.pc i = true) : (s.pc i).secondAlone = false := by
  by_contra hc
  have hal : (s.pc i).secondAlone = true := by simpa using hc
  unfold blockedAbove at hb
  split at hb
  · rename_i hlow
    have hsec : (s.pc i).hasSecond = true := by
      cases hx : s.pc i <;> rw [hx] at hal <;> simp_all [Phase.secondAlone, Phase.hasSecond]
    have e1 := secondFork_eq n i hn hi
    have e2 := firstFork_eq n (i + 1) hn (by omega)
    rw [if_neg (by omega)] at e1 e2
    have o1 := (hinv.forks_iff (i + 1) i).2 ⟨hi, Or.inr ⟨hsec, e1.symm⟩⟩
    have o2 := (hinv.forks_iff (i + 1) (i + 1)).2 ⟨by omega, Or.inl ⟨hb, e2.symm⟩⟩
    rw [o1] at o2
    have := Option.some.inj o2
    omega
  · rename_i hhigh
    obtain ⟨p1, p2, p3⟩ := topPartner_facts n i hn
    have := (htop i (topPartner n i) hi p1 (by omega) p2 (Ne.symm p3)).2 hal
    rw [this] at hb
    cases hb

theorem second_free_of_unblocked (n : Nat) (hn : 2 ≤ n) (s : Table) (hinv : TableInv n s)
    (i : Nat) (hi : i < n) (hb : blockedAbove n s.pc i = false)
    (hx : s.pc i = Phase.holdsFirst) : s.forks (secondFork n i) = none := by
  cases hown : s.forks (secondFork n i) with
  | none => rfl
  | some k =>
    exfalso
    obtain ⟨hk, hcl⟩ := (hinv.forks_iff _ _).1 hown
    have e1 := firstFork_eq n k hn hk
    have e2 := secondFork_eq n k hn hk
    have e3 := secondFork_eq n i hn hi
    unfold blockedAbove at hb
    split at hb
    · rename_i hlow
      rw [if_neg (by omega)] at e3
      rcases hcl with ⟨h0, h⟩ | ⟨h0, h⟩
      · have hk1 : k = i + 1 := by split at e1 <;> omega
        subst hk1
        rw [hb] at h0
        cases h0
      · have hk1 : k = i := by split at e2 <;> omega
        subst hk1
        rw [hx] at h0
        cases h0
    · rename_i hhigh
      obtain ⟨p1, p2, p3⟩ := topPartner_facts n i hn
      have hpast : (s.pc (topPartner n i)).pastSecond = true := by simpa using hb
      obtain ⟨hk1, hk2⟩ := top_fork_owner n hn s hinv i (topPartner n i) k hi p1 (by omega) p2
        (Ne.symm p3) hown
      rcases hk1 with hk1 | hk1
      · subst hk1; rw [hx] at hk2; cases hk2
      · subst hk1
        cases hy : s.pc (topPartner n i) <;> rw [hy] at hk2 hpast <;>
          simp [Phase.hasSecond, Phase.pastSecond] at hk2 hpast

theorem rank_step (n : Nat) (hn : 2 ≤ n) (s s1 : Table) (id : Nat) (hid : id < n)
    (hinv : TableInv n s) (htop : TopInv n s.pc)
    (hstep : philosopherRoutine n s id = some s1) :
    ∃ x, s1.pc = Function.update s.pc id x ∧
      x.rk (blockedAbove n s.pc id) < (s.pc id).rk (blockedAbove n s.pc id) ∧
      ((s.pc id).pastSecond = true → x.pastSecond = true) := by
  obtain ⟨hpc, hnd, _, _⟩ := step_next n s s1 id hstep
  refine ⟨_, hpc, ?_, fun h => pastSecond_next _ _ _ h⟩
  apply rk_next_lt _ _ _ _ hnd
  · exact not_alone_of_blocked n hn s hinv htop id hid
  · intro hb hx
    simpa using second_free_of_unblocked n hn s hinv id hid hb hx

theorem potential_step (s s1 : Table) (id : Nat) (hid : id < kNumPhilosophers)
    (hinv : TableInv kNumPhilosophers s) (htop : TopInv kNumPhilosophers s.pc)
    (hstep : philosopherRoutine kNumPhilosophers s id = some s1) :
    s1.potential < s.potential := by
  obtain ⟨x, hpc, hlt, hpast⟩ := rank_step kNumPhilosophers (by decide) s s1 id hid hinv htop hstep
  have hmono : ∀ y : Phase, y.rk (!x.pastSecond) ≤ y.rk (!(s.pc id).pastSecond) := by
    intro y
    apply rk_mono
    intro h
    cases hp : (s.pc id).pastSecond
    · rfl
    · rw [hpast hp] at h; cases h
  have hb0 := rk_le (s.pc 0) (x.hasFirst)
  have hb1 := rk_le (s.pc 1) (x.hasFirst)
  have hb2 := rk_le (s.pc 2) (x.hasFirst)
  unfold kNumPhilosophers at hid hlt
  unfold Table.potential
  rw [hpc]
  simp only [rankOf, blockedAbove, topPartner, kNumPhilosophers] at hlt ⊢
  interval_cases id
  · simp at hlt ⊢
    omega
  · simp at hlt ⊢
    omega
  · simp at hlt ⊢
    omega
  · have hm := hmono (s.pc 4)
    simp at hlt hm ⊢
    omega
  · have hm := hmono (s.pc 3)
    simp at hlt hm ⊢
    omega

/-! ### Dining philosophers : runs -/

theorem dine_inv (n : Nat) (hn : 2 ≤ n) (sched : List Nat) :
    ∀ s s1, TableInv n s → TopInv n s.pc → dine n s sched = some s1 →
      TableInv n s1 ∧ TopInv n s1.pc := by
  induction sched with
  | nil =>
    intro s s1 hinv htop h
    simp only [dine, Option.some.injEq] at h
    exact h ▸ ⟨hinv, htop⟩
  | cons id sched ih =>
    intro s s1 hinv htop h
    unfold dine at h
    split at h
    · rename_i hid
      split at h
      · rename_i s2 hs2
        exact ih s2 s1 (tableInv_step n hn s s2 id hid hinv hs2)
          (topInv_step n hn s s2 id hinv htop hs2) h
      · cases h
    · cases h

theorem dine_append (n : Nat) (a b : List Nat) :
    ∀ s, dine n s (a ++ b) = (dine n s a).bind (fun s1 => dine n s1 b) := by
  induction a with
  | nil => intro s; simp [dine]
  | cons id a ih =>
    intro s
    simp only [List.cons_append, dine]
    split
    · split
      · rename_i s2 hs2; exact ih s2
      · rfl
    · rfl

theorem dine_snoc (n : Nat) (a : List Nat) (id : Nat) (s s1 : Table)
    (h : dine n s (a ++ [id]) = some s1) :
    ∃ s2, dine n s a = some s2 ∧ id < n ∧ philosopherRoutine n s2 id = some s1 := by
  rw [dine_append] at h
  cases ha : dine n s a with
  | none => rw [ha] at h; cases h
  | some s2 =>
    rw [ha] at h
    simp only [Option.some_bind, dine] at h
    split at h
    · rename_i hid
      split at h
      · rename_i s3 hs3
        simp only [Option.some.injEq] at h
        subst h
        exact ⟨s2, rfl, hid, hs3⟩
      · cases h
    · cases h

theorem dine_potential (sched : List Nat) :
    ∀ s s1, TableInv kNumPhilosophers s → TopInv kNumPhilosophers s.pc →
      dine kNumPhilosophers s sched = some s1 → s1.potential + sched.length ≤ s.potential := by
  induction sched with
  | nil => intro s s1 _ _ h; simp only [dine, Option.some.injEq] at h; subst h; simp
  | cons id sched ih =>
    intro s s1 hinv htop h
    unfold dine at h
    split at h
    · rename_i hid
      split at h
      · rename_i s2 hs2
        have h1 := potential_step s s2 id hid hinv htop hs2
        have h2 := ih s2 s1 (tableInv_step _ (by decide) s s2 id hid hinv hs2)
          (topInv_step _ (by decide) s s2 id hinv htop hs2) h
        rw [List.length_cons]
        omega
      · cases h
    · cases h

theorem eating_reached (n : Nat) (i : Nat) (sched : List Nat) :
    ∀ s, dine n Table.init sched = some s → (s.pc i).ate = true →
      ∃ k s1, k ≤ sched.length ∧ dine n Table.init (sched.take k) = some s1 ∧
        s1.pc i = Phase.eating := by
  induction sched using List.reverseRecOn with
  | nil =>
    intro s h hr
    simp only [dine, Option.some.injEq] at h
    subst h
    simp [Table.init, Phase.ate] at hr
  | append_singleton a id ih =>
    intro s h hr
    obtain ⟨s2, ha, hid, hstep⟩ := dine_snoc n a id Table.init s h
    by_cases h6 : s.pc i = Phase.eating
    · exact ⟨(a ++ [id]).length, s, le_refl _, by rw [List.take_length]; exact h, h6⟩
    · obtain ⟨hpc, _, _, _⟩ := step_next n s2 s id hstep
      have h2 : (s2.pc i).ate = true := by
        by_cases hi : i = id
        · subst hi
          rw [hpc, Function.update_same] at hr h6
          rcases ate_next _ _ _ hr with h | h
          · exact h
          · exact absurd h h6
        · rw [hpc, Function.update_noteq hi] at hr
          exact hr
      obtain ⟨k, s1, hk, hd, he⟩ := ih s2 ha h2
      refine ⟨k, s1, by rw [List.length_append]; omega, ?_, he⟩
      rw [List.take_append_of_le_length hk]
      exact hd

theorem dine_completes :
    ∀ (m : Nat) (sched : List Nat) (s : Table),
      dine kNumPhilosophers Table.init sched = some s → s.potential ≤ m →
      ∃ rest s2, dine kNumPhilosophers Table.init (sched ++ rest) = some s2 ∧
        ∀ i, i < kNumPhilosophers → s2.pc i = Phase.done := by
  intro m
  induction m with
  | zero =>
    intro sched s h hm
    obtain ⟨hinv, htop⟩ := dine_inv _ (by decide) sched Table.init s (tableInv_init _)
      (topInv_init _) h
    refine ⟨[], s, by rw [List.append_nil]; exact h, ?_⟩
    intro i hi
    by_contra hnd
    obtain ⟨k, hk, hsome⟩ := no_deadlock _ s hinv i hi hnd
    obtain ⟨s1, hs1⟩ := Option.isSome_iff_exists.1 hsome
    have := potential_step s s1 k hk hinv htop hs1
    omega
  | succ m ih =>
    intro sched s h hm
    obtain ⟨hinv, htop⟩ := dine_inv _ (by decide) sched Table.init s (tableInv_init _)
      (topInv_init _) h
    by_cases hall : ∀ i, i < kNumPhilosophers → s.pc i = Phase.done
    · exact ⟨[], s, by rw [List.append_nil]; exact h, hall⟩
    · have hex : ∃ i, i < kNumPhilosophers ∧ s.pc i ≠ Phase.done := by
        by_contra hno
        exact hall (fun i hi => by
          by_contra hd
          exact hno ⟨i, hi, hd⟩)
      obtain ⟨i, hi, hnd⟩ := hex
      obtain ⟨k, hk, hsome⟩ := no_deadlock _ s hinv i hi hnd
      obtain ⟨s1, hs1⟩ := Option.isSome_iff_exists.1 hsome
      have hpot := potential_step s s1 k hk hinv htop hs1
      have hrun : dine kNumPhilosophers Table.init (sched ++ [k]) = some s1 := by
        rw [dine_append, h]
        simp only [Option.some_bind, dine, hk, if_true, hs1]
      obtain ⟨rest, s2, hd2, hdone⟩ := ih (sched ++ [k]) s1 hrun (by omega)
      refine ⟨k :: rest, s2, ?_, hdone⟩
      rw [List.append_assoc] at hd2
      exact hd2

/-! ### Barrier -/

theorem wrapInt_of_range (x : Int) (h1 : -2147483648 ≤ x) (h2 : x < 2147483648) :
    wrapInt x = x := by
  unfold wrapInt
  omega

theorem barrier_entries_shape (N : Nat) (hN2 : N < 2147483648) :
    ∀ k q r : Nat, k = N * q + r → r < N → q < 2147483648 →
      (Barrier.init N).entries k
        = { initialCount := (N : Int) - r, maxCount := N, generationCount := q } := by
  intro k
  induction k with
  | zero =>
    intro q r h hr _
    have hr0 : r = 0 := by omega
    have hq0 : N * q = 0 := by omega
    have hq : q = 0 := by
      rcases Nat.mul_eq_zero.1 hq0 with h0 | h0
      · omega
      · exact h0
    subst hr0; subst hq
    simp [Barrier.entries, Barrier.init]
  | succ k ih =>
    intro q r h hr hq
    by_cases hr0 : r = 0
    · subst hr0
      cases q with
      | zero => simp at h
      | succ q =>
        have hk : k = N * q + (N - 1) := by
          rw [Nat.mul_succ] at h; omega
        have e := ih q (N - 1) hk (by omega) (by omega)
        simp only [Barrier.entries, e, Barrier.wait]
        have hc : wrapInt ((N : Int) - ((N - 1 : Nat) : Int) - 1) = 0 := by
          rw [wrapInt_of_range] <;> omega
        rw [if_pos hc]
        simp only [Prod.fst]
        rw [wrapInt_of_range _ (by omega) (by omega)]
        simp
    · have hk : k = N * q + (r - 1) := by omega
      have e := ih q (r - 1) hk (by omega) hq
      simp only [Barrier.entries, e, Barrier.wait]
      have hc : wrapInt ((N : Int) - ((r - 1 : Nat) : Int) - 1) = (N : Int) - r := by
        rw [wrapInt_of_range] <;> omega
      rw [hc, if_neg (by omega)]

theorem barrier_entries_closed (N k : Nat) (hN : 1 ≤ N) (hN2 : N < 2147483648)
    (hk : k < N * 2147483648) :
    (Barrier.init N).entries k
      = { initialCount := (N : Int) - ((k % N : Nat) : Int), maxCount := N,
          generationCount := ((k / N : Nat) : Int) } := by
  have hq : k / N < 2147483648 := (Nat.div_lt_iff_lt_mul (by omega)).2 (by
    rw [Nat.mul_comm]; exact hk)
  exact barrier_entries_shape N hN2 k (k / N) (k % N) (Nat.div_add_mod k N).symm
    (Nat.mod_lt _ (by omega)) hq

theorem div_ne_iff_full_round (N j k : Nat) (hN : 1 ≤ N) (hjk : j ≤ k) :
    j / N ≠ k / N ↔ (j / N + 1) * N ≤ k := by
  have hmono : j / N ≤ k / N := Nat.div_le_div_right hjk
  rw [← Nat.le_div_iff_mul_le (by omega)]
  omega

/-- C5: for a Barrier of N parties (1 ≤ N, an `int`), after k entries into `wait()` with
`k / N` still an `int`, the generation counter is `k / N` and the remaining counter is
`N - k % N`, so it lies in `1 .. N`; entry `j + 1` raises the generation exactly when `N`
divides `j + 1`, and exactly then its caller passes without waiting; a caller whose entry
followed `j` earlier ones recorded generation `g = j / N` and finds its wake-up predicate
true after `k` entries exactly when `(g + 1) * N ≤ k`. -/
theorem barrier_generation_and_remaining (N k : Nat) (hN : 1 ≤ N) (hN2 : N < 2147483648)
    (hk : k < N * 2147483648) :
    ((Barrier.init N).entries k).generationCount = ((k / N : Nat) : Int) ∧
    ((Barrier.init N).entries k).initialCount = (N : Int) - ((k % N : Nat) : Int) ∧
    0 < ((Barrier.init N).entries k).initialCount ∧
    ((Barrier.init N).entries k).initialCount ≤ N ∧
    (∀ j, j < k →
      ((Barrier.init N).entries (j + 1)).generationCount
        = ((Barrier.init N).entries j).generationCount + (if N ∣ j + 1 then 1 else 0) ∧
      ((((Barrier.init N).entries j).wait).2.passes = true ↔ N ∣ j + 1) ∧
      (((Barrier.init N).entries j).wait).2.initialGen = ((j / N : Nat) : Int) ∧
      (((Barrier.init N).entries k).released ((((Barrier.init N).entries j).wait).2.initialGen)
          = true ↔ (j / N + 1) * N ≤ k)) := by
  have hNpos : 0 < N := by omega
  have hmod : k % N < N := Nat.mod_lt _ hNpos
  rw [barrier_entries_closed N k hN hN2 hk]
  refine ⟨rfl, rfl, ?_, ?_, ?_⟩
  · show (0 : Int) < (N : Int) - ((k % N : Nat) : Int)
    omega
  · show (N : Int) - ((k % N : Nat) : Int) ≤ N
    omega
  · intro j hj
    have hj1 : j < N * 2147483648 := by omega
    have hj2 : j + 1 < N * 2147483648 := by omega
    have hjm : j % N < N := Nat.mod_lt _ hNpos
    rw [barrier_entries_closed N (j + 1) hN hN2 hj2, barrier_entries_closed N j hN hN2 hj1]
    have hdvd : N ∣ j + 1 ↔ j % N + 1 = N := by
      constructor
      · intro h
        have h0 : (j + 1) % N = 0 := Nat.mod_eq_zero_of_dvd h
        rw [Nat.add_mod] at h0
        by_cases h1 : N = 1
        · omega
        · have h11 : 1 % N = 1 := Nat.mod_eq_of_lt (by omega)
          rw [h11] at h0
          by_contra hne
          have : (j % N + 1) % N = j % N + 1 := Nat.mod_eq_of_lt (by omega)
          omega
      · intro h
        have : j + 1 = N * (j / N + 1) := by
          have := Nat.div_add_mod j N
          rw [Nat.mul_succ]; omega
        exact ⟨_, this⟩
    refine ⟨?_, ?_, ?_, ?_⟩
    · show ((((j + 1) / N : Nat)) : Int) = ((j / N : Nat) : Int) + _
      rw [Nat.succ_div]
      split <;> simp
    · simp only [Barrier.wait]
      have hc : wrapInt ((N : Int) - ((j % N : Nat) : Int) - 1) = (N : Int) - (j % N : Nat) - 1 := by
        rw [wrapInt_of_range] <;> omega
      rw [hc, hdvd]
      split
      · simp; omega
      · simp; omega
    · simp only [Barrier.wait]
      split <;> rfl
    · have hg : (((Barrier.mk ((N : Int) - ((j % N : Nat) : Int)) N ((j / N : Nat) : Int)).wait).2).initialGen
          = ((j / N : Nat) : Int) := by
        simp only [Barrier.wait]
        split <;> rfl
      rw [hg]
      simp only [Barrier.released, bne_iff_ne, ne_eq]
      rw [← div_ne_iff_full_round N j k hN (by omega)]
      exact not_congr Nat.cast_inj

theorem barrier_generation_and_remaining_witness :
    ((Barrier.init 4).entries 10).generationCount = 2 ∧
    ((Barrier.init 4).entries 10).initialCount = 2 ∧
    (((Barrier.init 4).entries 10).released ((((Barrier.init 4).entries 3).wait).2.initialGen)
      = true) :=
  have h := barrier_generation_and_remaining 4 10 (by decide) (by decide) (by decide)
  ⟨h.1, h.2.1, (h.2.2.2.2 3 (by decide)).2.2.2.2 (by decide)⟩

/-! ### Monitor and spin lock : mutual exclusion -/

theorem exclusive_start : Exclusive false (fun _ => Pc.acquiring) := by
  constructor
  · simp
  · intro w1 w2 h; cases h

theorem exclusive_enter (pc : Nat → Pc) (w : Nat) (h : Exclusive false pc) :
    Exclusive true (Function.update pc w Pc.critical) := by
  obtain ⟨h1, _⟩ := h
  have hnone : ∀ v, pc v ≠ Pc.critical := fun v hv => by
    have := h1.2 ⟨v, hv⟩
    cases this
  constructor
  · simp only [true_iff]
    exact ⟨w, Function.update_same _ _ _⟩
  · intro w1 w2 e1 e2
    by_cases a1 : w1 = w
    · by_cases a2 : w2 = w
      · rw [a1, a2]
      · rw [Function.update_noteq a2] at e2
        exact absurd e2 (hnone w2)
    · rw [Function.update_noteq a1] at e1
      exact absurd e1 (hnone w1)

theorem exclusive_leave (held : Bool) (pc : Nat → Pc) (w : Nat) (q : Pc)
    (h : Exclusive held pc) (hw : pc w = Pc.critical) (hq : q ≠ Pc.critical) :
    Exclusive false (Function.update pc w q) := by
  obtain ⟨_, h2⟩ := h
  have hnone : ∀ v, Function.update pc w q v ≠ Pc.critical := by
    intro v hv
    by_cases a : v = w
    · subst a; rw [Function.update_same] at hv; exact hq hv
    · rw [Function.update_noteq a] at hv
      exact a (h2 v w hv hw)
  constructor
  · constructor
    · intro h; cases h
    · rintro ⟨v, hv⟩; exact absurd hv (hnone v)
  · intro w1 w2 e1 _
    exact absurd e1 (hnone w1)

theorem exclusive_move (held : Bool) (pc : Nat → Pc) (w : Nat) (q : Pc)
    (h : Exclusive held pc) (hw : pc w ≠ Pc.critical) (hq : q ≠ Pc.critical) :
    Exclusive held (Function.update pc w q) := by
  obtain ⟨h1, h2⟩ := h
  have hiff : ∀ v, Function.update pc w q v = Pc.critical ↔ pc v = Pc.critical := by
    intro v
    by_cases a : v = w
    · subst a; rw [Function.update_same]
      exact ⟨fun h => absurd h hq, fun h => absurd h hw⟩
    · rw [Function.update_noteq a]
  constructor
  · rw [h1]
    exact ⟨fun ⟨v, hv⟩ => ⟨v, (hiff v).2 hv⟩, fun ⟨v, hv⟩ => ⟨v, (hiff v).1 hv⟩⟩
  · intro w1 w2 e1 e2
    exact h2 w1 w2 ((hiff w1).1 e1) ((hiff w2).1 e2)

theorem next_pc_ne_critical (i : Nat) :
    (if i + 1 < kIterations then Pc.acquiring else Pc.finished) ≠ Pc.critical := by
  split <;> intro h <;> cases h

theorem threadMonitor_exclusive (s : Bench Monitor) (w : Nat)
    (h : Exclusive s.prim.isReady s.pc) :
    Exclusive (threadMonitor s w).prim.isReady (threadMonitor s w).pc := by
  unfold threadMonitor
  split <;> rename_i hpc
  · cases hr : s.prim.isReady
    · simp only [Monitor.locker, hr, Bool.false_eq_true, if_false, Bench.enter]
      rw [hr] at h
      exact exclusive_enter s.pc w h
    · simp only [Monitor.locker, hr, if_true, Bench.move]
      rw [hr] at h
      exact exclusive_move true s.pc w Pc.parked (hr ▸ h) (by rw [hpc]; decide) (by decide)
  · cases hr : s.prim.isReady
    · simp only [Monitor.locker, hr, Bool.false_eq_true, if_false, Bench.enter]
      rw [hr] at h
      exact exclusive_enter s.pc w h
    · simp only [Monitor.locker, hr, if_true, Bench.move]
      rw [hr] at h
      exact exclusive_move true s.pc w Pc.parked (hr ▸ h) (by rw [hpc]; decide) (by decide)
  · exact exclusive_leave _ s.pc w _ h hpc (next_pc_ne_critical _)
  · exact h

theorem threadSpinLock_exclusive (s : Bench AtomicFlag) (w : Nat)
    (h : Exclusive s.prim.flag s.pc) :
    Exclusive (threadSpinLock s w).prim.flag (threadSpinLock s w).pc := by
  unfold threadSpinLock
  split <;> rename_i hpc
  · cases hr : s.prim.flag
    · simp only [AtomicFlag.test_and_set, hr, Bench.enter]
      rw [hr] at h
      exact exclusive_enter s.pc w h
    · simp only [AtomicFlag.test_and_set, hr, Bench.move]
      rw [hr] at h
      exact exclusive_move true s.pc w Pc.acquiring h (by rw [hpc]; decide) (by decide)
  · exact h
  · exact exclusive_leave _ s.pc w _ h hpc (next_pc_ne_critical _)
  · exact h

theorem threadSpinWait_exclusive (s : Bench AtomicFlag) (w : Nat)
    (h : Exclusive s.prim.flag s.pc) :
    Exclusive (threadSpinWait s w).prim.flag (threadSpinWait s w).pc := by
  unfold threadSpinWait
  split <;> rename_i hpc
  · cases hr : s.prim.flag
    · simp only [AtomicFlag.test_and_set, hr, Bench.enter]
      rw [hr] at h
      exact exclusive_enter s.pc w h
    · simp only [AtomicFlag.test_and_set, hr, Bench.move]
      rw [hr] at h
      exact exclusive_move true s.pc w Pc.parked h (by rw [hpc]; decide) (by decide)
  · exact exclusive_move _ s.pc w Pc.acquiring h (by rw [hpc]; decide) (by decide)
  · exact exclusive_leave _ s.pc w _ h hpc (next_pc_ne_critical _)
  · exact h

theorem runBench_invariant {P : Type} (step : Bench P → Nat → Bench P) (I : Bench P → Prop)
    (hstep : ∀ s w, I s → I (step s w)) (sched : List Nat) :
    ∀ s, I s → I (runBench step s sched) := by
  induction sched with
  | nil => intro s h; exact h
  | cons w sched ih =>
    intro s h
    unfold runBench
    simp only [List.foldl_cons]
    by_cases hw : w < kWorkers
    · simp only [hw, if_true]
      exact ih _ (hstep s w h)
    · simp only [hw, if_false]
      exact ih _ h

theorem inside_length_le_one {P : Type} (s : Bench P)
    (h : ∀ w1 w2, s.pc w1 = Pc.critical → s.pc w2 = Pc.critical → w1 = w2) :
    s.inside.length ≤ 1 := by
  have hnd : s.inside.Nodup := (List.nodup_range kWorkers).filter _
  have hall : ∀ a ∈ s.inside, ∀ b ∈ s.inside, a = b := by
    intro a ha b hb
    simp only [Bench.inside, List.mem_filter, decide_eq_true_eq] at ha hb
    exact h a b ha.2 hb.2
  generalize s.inside = l at hnd hall
  match l, hnd, hall with
  | [], _, _ => simp
  | [_], _, _ => simp
  | a :: b :: _, hnd, hall =>
    have hab : a = b := hall a (by simp) b (by simp)
    subst hab
    simp at hnd

/-! ### Semaphore -/

theorem semaphore_call_range (s : Semaphore) (c : SemCall) (h0 : 0 ≤ s.sem)
    (h1 : s.sem ≤ SEM_VALUE_MAX) : 0 ≤ (s.call c).sem ∧ (s.call c).sem ≤ SEM_VALUE_MAX := by
  unfold SEM_VALUE_MAX at *
  cases c with
  | acquire =>
    simp only [Semaphore.call, Semaphore.acquire]
    split
    · rename_i hpos
      obtain ⟨_, hpos⟩ := hpos
      simp only [Option.getD_some]; omega
    · simp only [Option.getD_none]; omega
  | release =>
    simp only [Semaphore.call, Semaphore.release, SEM_VALUE_MAX]
    split
    · show 0 ≤ s.sem + 1 ∧ s.sem + 1 ≤ 2147483647
      omega
    · omega

theorem semaphore_calls_range (cs : List SemCall) :
    ∀ s : Semaphore, 0 ≤ s.sem → s.sem ≤ SEM_VALUE_MAX →
      0 ≤ (s.calls cs).sem ∧ (s.calls cs).sem ≤ SEM_VALUE_MAX := by
  induction cs with
  | nil => intro s h0 h1; exact ⟨h0, h1⟩
  | cons c cs ih =>
    intro s h0 h1
    obtain ⟨a, b⟩ := semaphore_call_range s c h0 h1
    exact ih (s.call c) a b

theorem semaphore_calls_held (m : Int) (cs : List SemCall) :
    ∀ (s : Semaphore) (held : Nat), s.sem + held ≤ m → releasesHeld s held cs = true →
      (s.calls cs).sem ≤ m := by
  induction cs with
  | nil => intro s held h _; simp only [Semaphore.calls, List.foldl_nil]; omega
  | cons c cs ih =>
    intro s held h hr
    cases c with
    | acquire =>
      simp only [releasesHeld] at hr
      simp only [Semaphore.calls, List.foldl_cons, Semaphore.call]
      cases ha : s.acquire with
      | none =>
        rw [ha] at hr
        exact ih s held h hr
      | some s1 =>
        rw [ha] at hr
        have hs1 : s1.sem = s.sem - 1 := by
          unfold Semaphore.acquire at ha
          split at ha
          · cases ha; rfl
          · cases ha
        exact ih s1 (held + 1) (by rw [hs1]; push_cast; omega) hr
    | release =>
      cases held with
      | zero => simp [releasesHeld] at hr
      | succ k =>
        simp only [releasesHeld] at hr
        simp only [Semaphore.calls, List.foldl_cons, Semaphore.call]
        have hs1 : s.release.sem ≤ s.sem + 1 := by
          unfold Semaphore.release
          split
          · exact le_refl _
          · omega
        exact ih s.release k (by push_cast at h; omega) hr

/-- C9 (as amended): for a Semaphore constructed with `0 ≤ initialCount ≤ maxCount`, after
every sequence of `acquire()` and `release()` calls the count is at least `0` and at most
`SEM_VALUE_MAX`; it is at most `maxCount` after every sequence in which each `release()`
gives back a permit taken by an earlier completed `acquire()`; `release()` on a semaphore
whose count equals `maxCount` raises the count to `maxCount + 1`. -/
theorem semaphore_count_bounds (initialCount maxCount : Int) (h0 : 0 ≤ initialCount)
    (h1 : initialCount ≤ maxCount) (h2 : maxCount ≤ SEM_VALUE_MAX) (cs : List SemCall) :
    0 ≤ ((Semaphore.init initialCount maxCount).calls cs).sem ∧
    ((Semaphore.init initialCount maxCount).calls cs).sem ≤ SEM_VALUE_MAX ∧
    (releasesHeld (Semaphore.init initialCount maxCount) 0 cs = true →
      ((Semaphore.init initialCount maxCount).calls cs).sem ≤ maxCount) ∧
    (∀ s : Semaphore, s.sem = maxCount → maxCount < SEM_VALUE_MAX →
      s.release.sem = maxCount + 1) := by
  have hinit : (Semaphore.init initialCount maxCount).sem = initialCount := by
    have ht : toUnsigned initialCount = initialCount := by
      unfold SEM_VALUE_MAX at h2
      unfold toUnsigned
      omega
    have hle : initialCount ≤ SEM_VALUE_MAX := le_trans h1 h2
    simp only [Semaphore.init, ht, hle, if_true]
  have hr := semaphore_calls_range cs (Semaphore.init initialCount maxCount)
    (by rw [hinit]; exact h0) (by rw [hinit]; omega)
  refine ⟨hr.1, hr.2, ?_, ?_⟩
  · intro hh
    exact semaphore_calls_held maxCount cs _ 0 (by rw [hinit]; simpa using h1) hh
  · intro s hs hlt
    unfold Semaphore.release
    rw [hs, if_pos hlt]

theorem semaphore_count_bounds_witness :
    ((Semaphore.init 4 4).calls [SemCall.acquire, SemCall.release, SemCall.acquire]).sem ≤ 4 ∧
    ({ sem := 4, iCount := 4, mCount := 4, initialised := true } : Semaphore).release.sem = 4 + 1 :=
  have h := semaphore_count_bounds 4 4 (by decide) (by decide) (by decide)
    [SemCall.acquire, SemCall.release, SemCall.acquire]
  ⟨h.2.2.1 (by decide), h.2.2.2 _ rfl (by decide)⟩

/-- C9 (counterexample): on the semaphore constructed by `Semaphore(4, 4)`, one `release()`
leaves the count at `5`, above `maxCount`. -/
theorem semaphore_release_exceeds_max :
    (0 : Int) ≤ 4 ∧ (4 : Int) ≤ 4 ∧
    ((Semaphore.init 4 4).calls [SemCall.release]).sem = 5 ∧
    ¬ (((Semaphore.init 4 4).calls [SemCall.release]).sem
        ≤ ((Semaphore.init 4 4).calls [SemCall.release]).mCount) := by
  decide

/-- C8 (as amended): constructing a primitive with these invalid parameters does not fail.
`Semaphore(initialCount, maxCount)` with `initialCount > maxCount` and `initialCount` between
`0` and `SEM_VALUE_MAX` yields an initialised semaphore that stores both arguments, whose
count starts at `initialCount` and that serves `acquire()` when `initialCount ≥ 1`;
`Barrier(0)` yields a barrier whose two counters are `0` and whose generation is `0`. -/
theorem invalid_parameters_not_rejected (initialCount maxCount : Int)
    (h0 : 0 ≤ initialCount) (h1 : initialCount ≤ SEM_VALUE_MAX)
    (_h2 : maxCount < initialCount) :
    (∃ s, Semaphore.construct initialCount maxCount = some s ∧
      s.initialised = true ∧ s.sem = initialCount ∧
      s.iCount = initialCount ∧ s.mCount = maxCount ∧
      (1 ≤ initialCount → ∃ s1, s.acquire = some s1 ∧ s1.sem = initialCount - 1)) ∧
    (∃ b, Barrier.construct 0 = some b ∧
      b.initialCount = 0 ∧ b.maxCount = 0 ∧ b.generationCount = 0) := by
  have ht : toUnsigned initialCount = initialCount := by
    unfold SEM_VALUE_MAX at h1
    unfold toUnsigned
    omega
  have hsem : (Semaphore.init initialCount maxCount).sem = initialCount := by
    simp only [Semaphore.init, ht, h1, if_true]
  have hok : (Semaphore.init initialCount maxCount).initialised = true := by
    simp only [Semaphore.init, ht, h1, decide_True]
  refine ⟨⟨_, rfl, hok, hsem, rfl, rfl, ?_⟩, ⟨_, rfl, rfl, rfl, rfl⟩⟩
  intro hpos
  refine ⟨{ Semaphore.init initialCount maxCount with
    sem := (Semaphore.init initialCount maxCount).sem - 1 }, ?_, ?_⟩
  · unfold Semaphore.acquire
    rw [if_pos ⟨hok, by rw [hsem]; omega⟩]
  · show (Semaphore.init initialCount maxCount).sem - 1 = initialCount - 1
    rw [hsem]

theorem invalid_parameters_not_rejected_witness :
    ((0 : Int) ≤ 5 ∧ (5 : Int) ≤ SEM_VALUE_MAX ∧ (4 : Int) < 5) ∧
    (∃ s, Semaphore.construct 5 4 = some s ∧ s.sem = 5 ∧
      ∃ s1, s.acquire = some s1 ∧ s1.sem = 5 - 1) ∧
    (∃ b, Barrier.construct 0 = some b ∧ b.initialCount = 0) :=
  have h := invalid_parameters_not_rejected 5 4 (by decide) (by decide) (by decide)
  ⟨⟨by decide, by decide, by decide⟩,
   h.1.imp (fun _ hs => ⟨hs.1, hs.2.2.1, hs.2.2.2.2.2 (by decide)⟩),
   h.2.imp (fun _ hb => ⟨hb.1, hb.2.1⟩)⟩

/-- C8 (counterexample): `Semaphore(5, 4)`, whose initial count exceeds the maximum, and
`Barrier(0)` are both constructed, and the semaphore serves an `acquire()`. -/
theorem invalid_parameters_accepted :
    (4 : Int) < 5 ∧ Semaphore.construct 5 4 ≠ none ∧
    ((Semaphore.construct 5 4).bind Semaphore.acquire).isSome = true ∧
    Barrier.construct 0 ≠ none := by
  decide

/-- C3 (evaluation at the failing schedule): in the semaphore benchmark of `main`, after
workers 0 and 1 have each completed `acquire()`, both are between `acquire()` and
`release()`, and after all four have, all four are. -/
theorem semaphore_benchmark_workers_inside_together :
    (semaphoreBenchmark [0, 1]).pc 0 = Pc.critical ∧
    (semaphoreBenchmark [0, 1]).pc 1 = Pc.critical ∧
    (semaphoreBenchmark [0, 1]).inside = [0, 1] ∧
    (semaphoreBenchmark [0, 1, 2, 3]).inside = [0, 1, 2, 3] := by
  decide

/-- C4: in every state of the monitor benchmark and of the two spin-lock benchmarks, reached
along any schedule, at most one worker is between its acquire and its release operation, and
the flag of the primitive is set exactly when one is; `locker()` completes exactly when
`isReady` is false and leaves it true, `test_and_set` returns the previous value and leaves
the flag set, `unlocker()` and `clear` leave the flag false. -/
theorem monitor_and_spin_mutual_exclusion (sched : List Nat) :
    ((∀ w1 w2, (monitorBenchmark sched).pc w1 = Pc.critical →
        (monitorBenchmark sched).pc w2 = Pc.critical → w1 = w2) ∧
      (monitorBenchmark sched).inside.length ≤ 1 ∧
      ((monitorBenchmark sched).prim.isReady = true ↔
        ∃ w, (monitorBenchmark sched).pc w = Pc.critical)) ∧
    ((∀ w1 w2, (spinLockBenchmark sched).pc w1 = Pc.critical →
        (spinLockBenchmark sched).pc w2 = Pc.critical → w1 = w2) ∧
      (spinLockBenchmark sched).inside.length ≤ 1 ∧
      ((spinLockBenchmark sched).prim.flag = true ↔
        ∃ w, (spinLockBenchmark sched).pc w = Pc.critical)) ∧
    ((∀ w1 w2, (spinWaitBenchmark sched).pc w1 = Pc.critical →
        (spinWaitBenchmark sched).pc w2 = Pc.critical → w1 = w2) ∧
      (spinWaitBenchmark sched).inside.length ≤ 1 ∧
      ((spinWaitBenchmark sched).prim.flag = true ↔
        ∃ w, (spinWaitBenchmark sched).pc w = Pc.critical)) ∧
    (∀ m : Monitor, ((m.locker).isSome = true ↔ m.isReady = false) ∧
      (∀ m1, m.locker = some m1 → m1.isReady = true) ∧ (m.unlocker).isReady = false) ∧
    (∀ f : AtomicFlag, (f.test_and_set).1 = f.flag ∧ (f.test_and_set).2.flag = true ∧
      (f.clear).flag = false) := by
  have hm := runBench_invariant threadMonitor (fun s => Exclusive s.prim.isReady s.pc)
    threadMonitor_exclusive sched (Bench.start Monitor.init) exclusive_start
  have hl := runBench_invariant threadSpinLock (fun s => Exclusive s.prim.flag s.pc)
    threadSpinLock_exclusive sched (Bench.start AtomicFlag.init) exclusive_start
  have hw := runBench_invariant threadSpinWait (fun s => Exclusive s.prim.flag s.pc)
    threadSpinWait_exclusive sched (Bench.start AtomicFlag.init) exclusive_start
  refine ⟨⟨hm.2, inside_length_le_one _ hm.2, hm.1⟩, ⟨hl.2, inside_length_le_one _ hl.2, hl.1⟩,
    ⟨hw.2, inside_length_le_one _ hw.2, hw.1⟩, ?_, ?_⟩
  · intro m
    refine ⟨?_, ?_, rfl⟩
    · cases hr : m.isReady <;> simp [Monitor.locker, hr]
    · intro m1 h
      unfold Monitor.locker at h
      split at h
      · cases h
      · cases h; rfl
  · intro f
    exact ⟨rfl, rfl, rfl⟩

theorem monitor_and_spin_mutual_exclusion_witness :
    (monitorBenchmark [0, 1, 2, 0, 1]).inside.length ≤ 1 ∧
    (spinLockBenchmark [0, 1, 2, 0, 1]).inside.length ≤ 1 ∧
    (spinWaitBenchmark [0, 1, 2, 0, 1]).inside.length ≤ 1 ∧
    (monitorBenchmark [0, 1, 2, 0, 1]).pc 1 = Pc.critical :=
  have h := monitor_and_spin_mutual_exclusion [0, 1, 2, 0, 1]
  ⟨h.1.2.1, h.2.1.2.1, h.2.2.1.2.1, by decide⟩

/-! ### Claims on Task3.cpp -/

theorem joinLoopBody_eq (v : ThreadVector) (is : List Nat) :
    joinLoopBody v is = joinThenDelete (is.map v.get) := by
  induction is with
  | nil => rfl
  | cons i is ih => simp only [joinLoopBody, List.map_cons, joinThenDelete, ih]

theorem joinCount_pairs (hs : List Handle) :
    joinCount (joinThenDelete (hs.map some)) = hs.length := by
  induction hs with
  | nil => rfl
  | cons h hs ih =>
    simp only [List.map_cons, joinThenDelete, joinCount, ih, List.length_cons]

theorem joinCountOf_pairs (t : Handle) (hs : List Handle) :
    joinCountOf t (joinThenDelete (hs.map some)) = hs.count t := by
  induction hs with
  | nil => rfl
  | cons h hs ih =>
    simp only [List.map_cons, joinThenDelete, joinCountOf, ih, List.count_cons,
      Option.some.injEq]
    by_cases e : h = t
    · simp only [e, if_true, beq_self_eq_true]; omega
    · have e2 : (h == t) = false := by simpa using e
      simp only [e, e2, if_false, Bool.false_eq_true]; omega

theorem range_map_get (hs : List Handle) :
    (List.range hs.length).map (addAll hs).get = hs.map some := by
  apply List.ext_getElem?
  intro i
  by_cases hi : i < hs.length
  · rw [List.getElem?_map, List.getElem?_range hi, Option.map_some',
      (addAll_inv hs).get_eq i hi, List.getElem?_map]
    rw [List.getElem?_eq_getElem hi]
    rfl
  · rw [List.getElem?_eq_none (by simpa using hi), List.getElem?_eq_none (by simpa using hi)]

/-- C1: for every list of handles added in order with `add()` to a freshly constructed
ThreadVector, `count()` returns the number of handles, `get(i)` returns the i-th handle for
every index below it, and a further `expand()` leaves every one of them where it is. -/
theorem threadVector_count_and_get (hs : List Handle) :
    (addAll hs).count = hs.length ∧
    (List.range hs.length).map (addAll hs).get = hs.map some ∧
    (∀ i, i < hs.length → (addAll hs).get i = hs[i]?) ∧
    (∀ i, i < hs.length → ((addAll hs).expand).get i = hs[i]?) := by
  have hinv := addAll_inv hs
  refine ⟨hinv.size_eq, range_map_get hs, hinv.get_eq, ?_⟩
  intro i hi
  rw [(expand_spec (addAll hs)).2.2.2 i, ← hinv.get_eq i hi]
  have h1 := hinv.size_eq
  have h2 := hinv.size_le
  rw [if_pos ⟨by omega, by omega⟩]

theorem threadVector_count_and_get_witness :
    (addAll [11, 12, 13]).count = 3 ∧ (addAll [11, 12, 13]).get 2 = some 13 ∧
    ((addAll [11, 12, 13]).expand).get 0 = some 11 :=
  have h := threadVector_count_and_get [11, 12, 13]
  ⟨h.1, h.2.2.1 2 (by decide), h.2.2.2 0 (by decide)⟩

/-- C2 (as amended): the destructor of a ThreadVector joins no worker and releases no
handle, only the backing array; the loop of `main` over `count()` and `get(i)`, run before
the vector is destroyed, joins each of the M handles and then releases it, in index order,
so that its join counter ends at exactly M and every handle is joined as often as it was
added. -/
theorem main_loop_joins_each_handle_once (hs : List Handle) :
    (addAll hs).destroy = [Event.deleteArray] ∧
    joinCount ((addAll hs).destroy) = 0 ∧
    mainJoinLoop (addAll hs) = joinThenDelete (hs.map some) ∧
    joinCount (mainJoinLoop (addAll hs) ++ (addAll hs).destroy) = hs.length ∧
    (∀ t, joinCountOf t (mainJoinLoop (addAll hs) ++ (addAll hs).destroy) = hs.count t) := by
  have hloop : mainJoinLoop (addAll hs) = joinThenDelete (hs.map some) := by
    unfold mainJoinLoop
    rw [joinLoopBody_eq, (show (addAll hs).count = hs.length from (addAll_inv hs).size_eq),
      range_map_get]
  have happ : ∀ es, joinCount (es ++ [Event.deleteArray]) = joinCount es := by
    intro es
    induction es with
    | nil => rfl
    | cons e es ih => cases e <;> simp [joinCount, ih]
  have happ2 : ∀ t es, joinCountOf t (es ++ [Event.deleteArray]) = joinCountOf t es := by
    intro t es
    induction es with
    | nil => rfl
    | cons e es ih => cases e <;> simp [joinCountOf, ih]
  refine ⟨rfl, rfl, hloop, ?_, ?_⟩
  · show joinCount (_ ++ [Event.deleteArray]) = _
    rw [happ, hloop, joinCount_pairs]
  · intro t
    show joinCountOf t (_ ++ [Event.deleteArray]) = _
    rw [happ2, hloop, joinCountOf_pairs]

theorem main_loop_joins_each_handle_once_witness :
    mainJoinLoop (addAll [11, 12])
      = [Event.join (some 11), Event.deleteThread (some 11),
         Event.join (some 12), Event.deleteThread (some 12)] ∧
    joinCountOf 12 (mainJoinLoop (addAll [11, 12]) ++ (addAll [11, 12]).destroy) = 1 :=
  have h := main_loop_joins_each_handle_once [11, 12]
  ⟨h.2.2.1, h.2.2.2.2 12⟩

/-- C2 (counterexample): destroying a ThreadVector that holds one handle joins no worker:
the join counter of the destructor ends at 0, not at 1. -/
theorem destructor_joins_nothing :
    (addAll [7]).count = 1 ∧ joinCount ((addAll [7]).destroy) = 0 ∧
    joinCount ((addAll [7]).destroy) ≠ (addAll [7]).count := by
  decide

/-- C10: in every state reached from a freshly constructed ThreadVector by `add()` calls,
`size_ ≤ capacity_`, `capacity_ ≥ 1` and the backing array has `capacity_` slots; the next
`add()` doubles the capacity when `size_ == capacity_` and leaves it unchanged otherwise;
after M adds the capacity is the smallest power of two that is at least `max(M, 1)`. -/
theorem threadVector_capacity (hs : List Handle) :
    (addAll hs).size_ ≤ (addAll hs).capacity_ ∧
    1 ≤ (addAll hs).capacity_ ∧
    (addAll hs).threads_.length = (addAll hs).capacity_ ∧
    (∀ t, ((addAll hs).add t).capacity_
      = if (addAll hs).size_ = (addAll hs).capacity_ then (addAll hs).capacity_ * 2
        else (addAll hs).capacity_) ∧
    (∃ k, (addAll hs).capacity_ = 2 ^ k ∧ max hs.length 1 ≤ 2 ^ k ∧
      ∀ j, max hs.length 1 ≤ 2 ^ j → 2 ^ k ≤ 2 ^ j) := by
  have hinv := addAll_inv hs
  refine ⟨hinv.size_le, hinv.cap_pos, hinv.len_eq, fun t => add_capacity _ t, ?_⟩
  obtain ⟨k, hk⟩ := hinv.cap_pow
  have h1 := hinv.size_eq
  have h2 := hinv.size_le
  have h3 := hinv.cap_pos
  have h4 := hinv.cap_tight
  refine ⟨k, hk, ?_, ?_⟩
  · rw [← hk]; omega
  · intro j hj
    by_contra hlt
    have hjk : j < k := by
      by_contra hge
      exact hlt (Nat.pow_le_pow_right (by decide) (by omega))
    have h5 : 2 ^ (j + 1) ≤ 2 ^ k := Nat.pow_le_pow_right (by decide) hjk
    rw [pow_succ] at h5
    have h6 : 1 ≤ 2 ^ j := Nat.one_le_two_pow
    omega

theorem threadVector_capacity_witness :
    (addAll [1, 2, 3, 4, 5]).capacity_ = 8 ∧ (addAll [1, 2, 3, 4]).capacity_ = 4 ∧
    ((addAll [1, 2, 3, 4]).add 5).capacity_ = 8 ∧ (addAll []).capacity_ = 1 :=
  have h := threadVector_capacity [1, 2, 3, 4]
  ⟨by decide, by decide, (h.2.2.2.1 5).trans (by decide), by decide⟩

/-- C6: for the five philosophers of `main`, each taking its two forks with
`lock(first_fork, second_fork)` and unlocking both after eating, in every state reached
along any schedule: if some philosopher has not finished, some philosopher can take a step
(no deadlock); the run has at most 162128 steps, so no run goes on for ever; every
philosopher that has finished was, at an earlier point of the run, eating with both of its
forks locked; and the run can be continued to one in which all five have finished. -/
theorem philosophers_no_deadlock (sched : List Nat) (s : Table)
    (h : dine kNumPhilosophers Table.init sched = some s) :
    ((∃ i, i < kNumPhilosophers ∧ s.pc i ≠ Phase.done) →
        ∃ k, k < kNumPhilosophers ∧ (philosopherRoutine kNumPhilosophers s k).isSome = true) ∧
    sched.length ≤ 162128 ∧
    (∀ i, i < kNumPhilosophers → s.pc i = Phase.done →
        ∃ k s1, k ≤ sched.length ∧
          dine kNumPhilosophers Table.init (sched.take k) = some s1 ∧
          s1.pc i = Phase.eating ∧ s1.forks (firstFork kNumPhilosophers i) = some i ∧
          s1.forks (secondFork kNumPhilosophers i) = some i) ∧
    (∃ rest s2, dine kNumPhilosophers Table.init (sched ++ rest) = some s2 ∧
        ∀ i, i < kNumPhilosophers → s2.pc i = Phase.done) := by
  obtain ⟨hinv, htop⟩ := dine_inv _ (by decide) sched Table.init s (tableInv_init _)
    (topInv_init _) h
  have hpot := dine_potential sched Table.init s (tableInv_init _) (topInv_init _) h
  have hinit : Table.init.potential = 162128 := by decide
  refine ⟨?_, by omega, ?_, dine_completes _ sched s h (le_refl _)⟩
  · rintro ⟨i, hi, hnd⟩
    exact no_deadlock _ s hinv i hi hnd
  · intro i hi hd
    obtain ⟨k, s1, hk, hd1, he⟩ := eating_reached _ i sched s h (by rw [hd]; rfl)
    have hinv1 := (dine_inv _ (by decide) _ Table.init s1 (tableInv_init _) (topInv_init _)
      hd1).1
    refine ⟨k, s1, hk, hd1, he, ?_, ?_⟩
    · exact (hinv1.forks_iff _ _).2 ⟨hi, Or.inl ⟨by rw [he]; rfl, rfl⟩⟩
    · exact (hinv1.forks_iff _ _).2 ⟨hi, Or.inr ⟨by rw [he]; rfl, rfl⟩⟩

theorem philosophers_no_deadlock_witness :
    ∃ s, dine kNumPhilosophers Table.init (oneByOne kNumPhilosophers) = some s ∧
      s.pc 0 = Phase.done ∧
      ∃ k s1, k ≤ (oneByOne kNumPhilosophers).length ∧
        dine kNumPhilosophers Table.init ((oneByOne kNumPhilosophers).take k) = some s1 ∧
        s1.pc 0 = Phase.eating := by
  obtain ⟨s, hs⟩ := Option.isSome_iff_exists.1
    (by decide : (dine kNumPhilosophers Table.init (oneByOne kNumPhilosophers)).isSome = true)
  have hdone : s.pc 0 = Phase.done := by
    have hm : (dine kNumPhilosophers Table.init (oneByOne kNumPhilosophers)).map
        (fun t => t.pc 0) = some Phase.done := by decide
    rw [hs] at hm
    exact Option.some.inj hm
  obtain ⟨k, s1, hk, hd, he, _, _⟩ :=
    (philosophers_no_deadlock _ s hs).2.2.1 0 (by decide) hdone
  exact ⟨s, hs, hdone, k, s1, hk, hd, he⟩
